import Mathlib

/-!
Verification of the link/asset rewriting subsystem of
`scripts/space_fill.py` (Obsidian image-space fixer).

The Python source is shallowly embedded: strings are `List Char`
(wrapped into `String` at the API boundary), filesystem paths are a
`JPath` structure (directory components plus a file name), and the
filesystem itself is an association list from paths to file contents
(contents abstracted as `Nat`).  Every definition follows the source
line by line; deviations forced by the embedding (e.g. `\s` modelled by
the six ASCII whitespace characters Python's `re` matches on ASCII
text) are noted in the doc comments.
-/

namespace SpaceFill

/-! ### Characters and low-level string helpers -/

/-- The ASCII characters matched by Python's regex class `\s`
(space, tab, newline, carriage return, vertical tab, form feed). -/
def isSpaceC (c : Char) : Bool :=
  c = ' ' || c = '\t' || c = '\n' || c = '\r' || c = '\x0b' || c = '\x0c'

/-- `c = '-'`, the hyphen test used by `strip('-')` and `-{2,}`. -/
def isHyC (c : Char) : Bool := c = '-'

/-! ### `normalize_hyphens` (source lines 34-45) -/

/-- `name.replace("%20", " ")`: left-to-right single pass replacing each
non-overlapping occurrence of `%20` by a single space. -/
def replace20 : List Char → List Char
  | '%' :: '2' :: '0' :: rest => ' ' :: replace20 rest
  | c :: rest => c :: replace20 rest
  | [] => []

/-- `re.sub(r'\s+', '-', name)`: collapse every maximal run of
whitespace to one hyphen.  The flag records whether the previous
character was part of a whitespace run already emitted as `-`. -/
def collapseWsAux : Bool → List Char → List Char
  | _, [] => []
  | inRun, c :: rest =>
    if isSpaceC c then
      if inRun then collapseWsAux true rest
      else '-' :: collapseWsAux true rest
    else c :: collapseWsAux false rest

/-- `re.sub(r'-{2,}', '-', name)`: collapse every run of hyphens to a
single hyphen (runs of length one are unchanged either way).  The flag
records whether the previous character was a hyphen. -/
def collapseHyAux : Bool → List Char → List Char
  | _, [] => []
  | inRun, c :: rest =>
    if isHyC c then
      if inRun then collapseHyAux true rest
      else '-' :: collapseHyAux true rest
    else c :: collapseHyAux false rest

/-- `name.strip('-')`: drop every leading and trailing hyphen. -/
def stripEnds (p : Char → Bool) (l : List Char) : List Char :=
  ((l.dropWhile p).reverse.dropWhile p).reverse

/-- Body of `normalize_hyphens` on character lists, composing the four
steps in source order. -/
def normalizeL (l : List Char) : List Char :=
  stripEnds isHyC (collapseHyAux false (collapseWsAux false (replace20 l)))

/-- `normalize_hyphens(name)` (source lines 34-45). -/
def normalize_hyphens (s : String) : String := ⟨normalizeL s.data⟩

/-! ### Substring / shape checkers used to state the properties -/

/-- Does the list contain the literal substring `%20`? -/
def has20 : List Char → Bool
  | '%' :: '2' :: '0' :: _ => true
  | _ :: rest => has20 rest
  | [] => false

/-- Does the list contain a whitespace character? -/
def hasWs (l : List Char) : Bool := l.any isSpaceC

/-- Does the list contain two adjacent hyphens? -/
def hasDoubleHy : List Char → Bool
  | '-' :: '-' :: _ => true
  | _ :: rest => hasDoubleHy rest
  | [] => false

/-! ### Paths and the filesystem model -/

/-- A filesystem path as used by `pathlib.Path`: the directory part
(`p.parent`, kept abstract as a list of components) and the final
component `p.name`. -/
structure JPath where
  dir : List String
  name : String
deriving DecidableEq, Repr

/-- Decimal digit character, as produced by Python's `f"{n}"`. -/
def digitC : Nat → Char
  | 0 => '0' | 1 => '1' | 2 => '2' | 3 => '3' | 4 => '4'
  | 5 => '5' | 6 => '6' | 7 => '7' | 8 => '8' | _ => '9'

/-- Fuelled digit emitter behind `natChars`; `fuel > n` always
suffices, so the wrapper below never hits the dead `0` case. -/
def natCharsGo : Nat → Nat → List Char
  | 0, _ => []
  | fuel + 1, n =>
    if n < 10 then [digitC n]
    else natCharsGo fuel (n / 10) ++ [digitC (n % 10)]

/-- Decimal representation of a natural number (the characters Python's
`f"{n}"` interpolates). -/
def natChars (n : Nat) : List Char := natCharsGo (n + 1) n

/-- `pathlib`'s split of a name into `(stem, suffix)`: the suffix starts
at the last dot, provided that dot is neither the first nor past the
last character of the name; otherwise the suffix is empty. -/
def stemSuffix (name : List Char) : List Char × List Char :=
  let k := (name.reverse.takeWhile (fun c => c ≠ '.')).length
  if k < name.length ∧ 1 ≤ k ∧ k + 2 ≤ name.length then
    (name.take (name.length - 1 - k), name.drop (name.length - 1 - k))
  else (name, [])

/-- The filesystem: an association list from existing paths to their
contents (contents abstracted as `Nat`; directories, which `exists()`
also reports, are simply further entries). -/
abbrev FS := List (JPath × Nat)

/-- `path.exists()` against the snapshot `fs`. -/
def FS.memP (fs : FS) (p : JPath) : Bool := fs.any (fun e => e.1 = p)

/-- Content lookup (first entry wins; paths are unique in well-formed
snapshots). -/
def FS.get (fs : FS) (p : JPath) : Option Nat :=
  (fs.find? (fun e => e.1 = p)).map (fun e => e.2)

/-- Remove every entry at path `p`. -/
def FS.erase (fs : FS) (p : JPath) : FS := fs.filter (fun e => ¬ e.1 = p)

/-- `os.replace(old, new)`: fails (raises) when `old` does not exist;
otherwise removes `old` and (over)writes `new` with `old`'s content. -/
def osReplace (fs : FS) (old new : JPath) : Option FS :=
  match FS.get fs old with
  | none => none
  | some c => some ((new, c) :: FS.erase (FS.erase fs old) new)

/-! ### `choose_unique_path` (source lines 47-59) -/

/-- The trial name `f"{stem}-{n}{suffix}"`. -/
def candName (stem sfx : List Char) (n : Nat) : List Char :=
  stem ++ '-' :: (natChars n ++ sfx)

/-- The trial path `parent / f"{stem}-{n}{suffix}"`. -/
def candPath (target : JPath) (n : Nat) : JPath :=
  ⟨target.dir, ⟨candName (stemSuffix target.name.data).1 (stemSuffix target.name.data).2 n⟩⟩

/-- The `while True` loop of `choose_unique_path`, made total with
explicit fuel; `chooseLoop_isSome` below shows `fs.length + 1` units of
fuel always suffice, so the fuelled loop equals the source's unbounded
loop. -/
def chooseLoop (fs : FS) (target : JPath) : Nat → Nat → Option JPath
  | _, 0 => none
  | n, fuel + 1 =>
    let c := candPath target n
    if FS.memP fs c then chooseLoop fs target (n + 1) fuel else some c

/-- `choose_unique_path(target)` against snapshot `fs`, as an `Option`
(`none` only on fuel exhaustion, which `chooseLoop_isSome` rules out). -/
def chooseOpt (fs : FS) (target : JPath) : Option JPath :=
  if FS.memP fs target then chooseLoop fs target 1 (fs.length + 1)
  else some target

/-- `choose_unique_path(target)` (source lines 47-59). -/
def choose_unique_path (fs : FS) (target : JPath) : JPath :=
  (chooseOpt fs target).getD target

/-! ### `collect_image_renames` (source lines 61-71) -/

/-- `p.suffix.lower()` (ASCII lowering, as `str.lower` performs on the
ASCII extensions involved). -/
def suffixLower (p : JPath) : String :=
  ⟨((stemSuffix p.name.data).2).map Char.toLower⟩

/-- `" " in name or "%20" in name`. -/
def nameNeedsFix (name : List Char) : Bool :=
  name.contains ' ' || has20 name

/-- `collect_image_renames(vault, image_exts)` (source lines 61-71).
`files` is the list of file paths the `vault.rglob("*")` walk yields
(in walk order, each an existing file); `fs` is the disk snapshot the
`exists()` checks of the collision resolver run against.  The planner
mutates nothing, so the snapshot is the same for every check. -/
def collect_image_renames (files : List JPath) (fs : FS) (image_exts : List String) :
    List (JPath × JPath) :=
  match files with
  | [] => []
  | p :: rest =>
    if image_exts.contains (suffixLower p) && nameNeedsFix p.name.data then
      if (⟨normalizeL p.name.data⟩ : String) ≠ p.name then
        (p, choose_unique_path fs ⟨p.dir, ⟨normalizeL p.name.data⟩⟩) ::
          collect_image_renames rest fs image_exts
      else collect_image_renames rest fs image_exts
    else collect_image_renames rest fs image_exts

/-! ### `apply_renames` (source lines 73-81) -/

/-- `apply_renames(mapping, dry_run)` (source lines 73-81), run against
filesystem `fs`.  The first component models the Python return/raise: a
`.ok` carries the `changed` list, a `.error old` models the uncaught
exception from `os.replace(old, new)` (the `changed` list is lost with
it); the second component is the filesystem after the call, which keeps
every mutation made before the exception.  `mkdir(parents=True,
exist_ok=True)` touches only directories, which the association list
does not track, so it is modelled as a no-op; the modelled failure is
the `os.replace` of a missing source, which raises `FileNotFoundError`. -/
def apply_renames :
    List (JPath × JPath) → Bool → FS → Except JPath (List (JPath × JPath)) × FS
  | [], _, fs => (.ok [], fs)
  | (old, new) :: rest, dry_run, fs =>
    if dry_run then
      let r := apply_renames rest dry_run fs
      (r.1.map (fun l => (old, new) :: l), r.2)
    else
      match osReplace fs old new with
      | none => (.error old, fs)
      | some fs1 =>
        let r := apply_renames rest dry_run fs1
        (r.1.map (fun l => (old, new) :: l), r.2)

/-! ### String utilities for the reference rewriter -/

/-- `s.lower()` (ASCII case folding, as `str.lower` performs on the
ASCII names involved). -/
def toLowerL (l : List Char) : List Char := l.map Char.toLower

/-- `s.replace(" ", "%20")`. -/
def encode20 (l : List Char) : List Char :=
  l.foldr (fun c acc => if c = ' ' then '%' :: '2' :: '0' :: acc else c :: acc) []

/-- `s.split(sep)` for a one-character separator: always returns at
least one (possibly empty) segment. -/
def splitOnChar (sep : Char) : List Char → List (List Char)
  | [] => [[]]
  | c :: rest =>
    match splitOnChar sep rest with
    | g :: gs => if c = sep then [] :: g :: gs else (c :: g) :: gs
    | [] => [[c]]

/-- `s.endswith(t)`. -/
def endsWithL (l suf : List Char) : Bool :=
  suf.length ≤ l.length && l.drop (l.length - suf.length) = suf

/-- Insert into a Python `dict` modelled as an association list in
insertion order: overwrite the value if the key is present, else append. -/
def dinsert : List (List Char × List Char) → List Char → List Char → List (List Char × List Char)
  | [], k, v => [(k, v)]
  | (k', v') :: rest, k, v =>
    if k' = k then (k', v) :: rest else (k', v') :: dinsert rest k v

/-- `d.get(k)` / `k in d` on the association-list dict. -/
def dget (d : List (List Char × List Char)) (k : List Char) : Option (List Char) :=
  (d.find? (fun e => e.1 = k)).map (fun e => e.2)

/-- Python truthiness of an optional string (`None` and `""` are falsy). -/
def truthyO : Option (List Char) → Bool
  | some v => v ≠ []
  | none => false

/-! ### `fix_markdown_links_in_content` (source lines 112-186) -/

/-- The `base_lookup` dict (source lines 116-119): for every rename
pair, the lowercased old basename and its `%20`-encoded variant both
map to the new basename. -/
def buildBaseLookup (rename_map : List (JPath × JPath)) : List (List Char × List Char) :=
  rename_map.foldl
    (fun d pr =>
      dinsert (dinsert d (toLowerL pr.1.name.data) pr.2.name.data)
        (toLowerL (encode20 pr.1.name.data)) pr.2.name.data)
    []

/-- `ext` as computed from `filename.rpartition(".")` (source lines
145-146): `"." + part-after-last-dot` when a dot is present, else `""`. -/
def rpartExt (filename : List Char) : List Char :=
  if filename.contains '.' then
    '.' :: (filename.reverse.takeWhile (fun c => c ≠ '.')).reverse
  else []

/-- Is the character one of the quote characters of the
`startswith(("\x22", "'"))` test? -/
def isQuoteC (c : Char) : Bool := c = '"' || c = '\''

/-- `_rewrite_path(path_text)` (source lines 121-157). -/
def rewritePath (lookup : List (List Char × List Char)) (image_exts : List String)
    (path_text : List Char) : List Char :=
  let stripped := stripEnds isSpaceC path_text
  let path := stripEnds (fun c => c = '\'') (stripEnds (fun c => c = '"') stripped)
  let path2 := if path.contains '#' then path.takeWhile (fun c => c ≠ '#') else path
  let anchor : List Char :=
    if path.contains '#' then '#' :: ((path.dropWhile (fun c => c ≠ '#')).tail) else []
  let pathPosix := path2.map (fun c => if c = '\\' then '/' else c)
  let parts := splitOnChar '/' pathPosix
  let filename := parts.getLastD []
  let newFilename : Option (List Char) :=
    match dget lookup (toLowerL filename) with
    | some v => some v
    | none =>
      if image_exts.contains (⟨toLowerL (rpartExt filename)⟩ : String) &&
          nameNeedsFix filename then
        some (normalizeL filename)
      else none
  let parts2 :=
    if truthyO newFilename then parts.dropLast ++ [newFilename.getD []] else parts
  let newPath := List.intercalate ['/'] parts2 ++ anchor
  if stripped ≠ [] && isQuoteC (stripped.headD ' ') && isQuoteC (stripped.getLastD ' ') then
    stripped.headD ' ' :: (newPath ++ [stripped.headD ' '])
  else newPath

/-- `wiki_repl` applied to one match (source lines 164-182); `bang`
records whether the leading marker group captured `!`.  Returns the
full replacement token `f"{bang}{target_clean}{anchor}{pipe}{close}"`. -/
def wikiRepl (lookup : List (List Char × List Char)) (image_exts : List String)
    (bang : Bool) (target anchor pipe : List Char) : List Char :=
  let targetClean := (stripEnds isSpaceC target).map (fun c => if c = '\\' then '/' else c)
  let parts := splitOnChar '/' targetClean
  let filename := parts.getLastD []
  let isImage := image_exts.any (fun e => endsWithL (toLowerL filename) e.data)
  let targetClean2 :=
    if bang && (isImage || (dget lookup (toLowerL filename)).isSome) then
      let nf0 := dget lookup (toLowerL filename)
      let nf1 :=
        if !truthyO nf0 && image_exts.any (fun e => endsWithL (toLowerL filename) e.data) then
          some (normalizeL filename)
        else nf0
      if truthyO nf1 then List.intercalate ['/'] (parts.dropLast ++ [nf1.getD []])
      else targetClean
    else targetClean
  (if bang then ['!', '[', '['] else ['[', '[']) ++ targetClean2 ++ anchor ++ pipe ++ [']', ']']

/-- The character class `[^\x5d]` of the alt-text group. -/
def mdAltC (c : Char) : Bool := c ≠ ']'

/-- The character class `[^)]` of the path group. -/
def mdPathC (c : Char) : Bool := c ≠ ')'

/-- The character class `[^\x5d|#]` of the wiki-link target group. -/
def wikiTgtC (c : Char) : Bool := c ≠ ']' && c ≠ '|' && c ≠ '#'

/-- The character class `[^\x5d|]` of the wiki-link anchor group. -/
def wikiAncC (c : Char) : Bool := c ≠ ']' && c ≠ '|'

/-- The character class `[^\x5d]` of the wiki-link alias group. -/
def wikiPipeC (c : Char) : Bool := c ≠ ']'

/-- Leftmost match of `MarkdownImagePattern`
`(!\[[^\x5d]*\]\()([^)]+)(\))` at the head of the input: on success
returns the alt-text run, the path run, and the input after the match.
The character classes exclude the following delimiter, so the greedy
regex match is this deterministic scan. -/
def tryMd (s : List Char) : Option (List Char × List Char × List Char) :=
  match s with
  | '!' :: '[' :: s1 =>
    match s1.dropWhile mdAltC with
    | ']' :: '(' :: s3 =>
      match s3.dropWhile mdPathC with
      | ')' :: s5 =>
        if s3.takeWhile mdPathC = [] then none
        else some (s1.takeWhile mdAltC, s3.takeWhile mdPathC, s5)
      | _ => none
    | _ => none
  | _ => none

/-- Tail of a `WikiLinkPattern`
`(!?\[\[)([^\x5d|#]+)(#[^\x5d|]+)?(\|[^\x5d]+)?(\]\])` match after the
target and anchor groups: the optional pipe group (attempted greedily;
when its body cannot match, every later alternative fails on the same
character, so the deterministic scan is faithful) and the closing `]]`. -/
def tryWikiTail (tgt anc : List Char) (s3 : List Char) :
    Option (List Char × List Char × List Char × List Char) :=
  match s3 with
  | '|' :: s4 =>
    match s4.dropWhile wikiPipeC with
    | ']' :: ']' :: rest =>
      if s4.takeWhile wikiPipeC = [] then none
      else some (tgt, anc, '|' :: s4.takeWhile wikiPipeC, rest)
    | _ => none
  | ']' :: ']' :: rest => some (tgt, anc, [], rest)
  | _ => none

/-- The target and optional anchor group of `WikiLinkPattern` after the
opening `[[`, handing off to `tryWikiTail` for the pipe group and the
closing `]]`. -/
def tryWikiCore (s : List Char) : Option (List Char × List Char × List Char × List Char) :=
  match s with
  | '[' :: '[' :: s1 =>
    if s1.takeWhile wikiTgtC = [] then none
    else
      match s1.dropWhile wikiTgtC with
      | '#' :: s2 =>
        if s2.takeWhile wikiAncC = [] then none
        else
          tryWikiTail (s1.takeWhile wikiTgtC) ('#' :: s2.takeWhile wikiAncC)
            (s2.dropWhile wikiAncC)
      | s2 => tryWikiTail (s1.takeWhile wikiTgtC) [] s2
  | _ => none

/-- Leftmost match of the full `WikiLinkPattern` including the optional
leading `!`. -/
def tryWiki (s : List Char) :
    Option (Bool × List Char × List Char × List Char × List Char) :=
  match s with
  | '!' :: rest => (tryWikiCore rest).map (fun r => (true, r.1, r.2.1, r.2.2.1, r.2.2.2))
  | _ => (tryWikiCore s).map (fun r => (false, r.1, r.2.1, r.2.2.1, r.2.2.2))

/-- A successful `MarkdownImagePattern` match consumes at least the five
delimiter characters, so the rest of the input is strictly shorter. -/
theorem tryMd_len {s : List Char} {r : List Char × List Char × List Char}
    (h : tryMd s = some r) : r.2.2.length < s.length := by
  unfold tryMd at h
  split at h
  case _ s1 =>
    split at h
    case _ s3 heq =>
      have h1 : s3.length + 2 ≤ s1.length := by
        have := (List.dropWhile_sublist (l := s1) mdAltC).length_le
        rw [heq] at this
        simpa using this
      split at h
      case _ s5 heq2 =>
        have h2 : s5.length + 1 ≤ s3.length := by
          have := (List.dropWhile_sublist (l := s3) mdPathC).length_le
          rw [heq2] at this
          simpa using this
        split at h
        · exact absurd h (by simp)
        · cases h
          simp only [List.length_cons]
          omega
      · exact absurd h (by simp)
    · exact absurd h (by simp)
  · exact absurd h (by simp)

/-- `tryWikiTail` consumes at least the closing `]]`. -/
theorem tryWikiTail_len {tgt anc s3 : List Char}
    {r : List Char × List Char × List Char × List Char}
    (h : tryWikiTail tgt anc s3 = some r) : r.2.2.2.length + 2 ≤ s3.length := by
  unfold tryWikiTail at h
  split at h
  case _ s4 =>
    split at h
    case _ rest heq =>
      have h1 : rest.length + 2 ≤ s4.length := by
        have := (List.dropWhile_sublist (l := s4) wikiPipeC).length_le
        rw [heq] at this
        simpa using this
      split at h
      · exact absurd h (by simp)
      · cases h
        simp only [List.length_cons]
        omega
    · exact absurd h (by simp)
  case _ rest =>
    cases h
    simp
  · exact absurd h (by simp)

/-- A successful `WikiLinkPattern` core match leaves a strictly shorter
rest. -/
theorem tryWikiCore_len {s : List Char}
    {r : List Char × List Char × List Char × List Char}
    (h : tryWikiCore s = some r) : r.2.2.2.length < s.length := by
  unfold tryWikiCore at h
  split at h
  case _ s1 =>
    split at h
    · exact absurd h (by simp)
    · split at h
      case _ s2 heq =>
        have h1 : s2.length + 1 ≤ s1.length := by
          have := (List.dropWhile_sublist (l := s1) wikiTgtC).length_le
          rw [heq] at this
          simpa using this
        split at h
        · exact absurd h (by simp)
        · have h2 := tryWikiTail_len h
          have h3 : (s2.dropWhile wikiAncC).length ≤ s2.length :=
            (List.dropWhile_sublist _).length_le
          simp only [List.length_cons]
          omega
      case _ s2 =>
        have h2 := tryWikiTail_len h
        have h1 : (s1.dropWhile wikiTgtC).length ≤ s1.length :=
          (List.dropWhile_sublist _).length_le
        simp only [List.length_cons]
        omega
  · exact absurd h (by simp)

/-- A successful full `WikiLinkPattern` match leaves a strictly shorter
rest. -/
theorem tryWiki_len {s : List Char}
    {r : Bool × List Char × List Char × List Char × List Char}
    (h : tryWiki s = some r) : r.2.2.2.2.length < s.length := by
  unfold tryWiki at h
  split at h
  case _ rest =>
    cases hc : tryWikiCore rest with
    | none => rw [hc] at h; exact absurd h (by simp)
    | some rc =>
      rw [hc] at h
      simp only [Option.map_some'] at h
      cases h
      have := tryWikiCore_len hc
      simp only [List.length_cons]
      omega
  · cases hc : tryWikiCore s with
    | none => rw [hc] at h; exact absurd h (by simp)
    | some rc =>
      rw [hc] at h
      simp only [Option.map_some'] at h
      cases h
      exact tryWikiCore_len hc

/-- Fuelled scanner behind the inline-form pass: at a match emit
`f"{before}{new_path}{after}"` and continue after the match, else copy
one character.  Every round consumes at least one input character, so
`l.length` units of fuel always suffice (`subMdGo_fuel`), and the dead
`0` case is never reached from the wrapper. -/
def subMdGo (lookup : List (List Char × List Char)) (image_exts : List String) :
    Nat → List Char → List Char
  | _, [] => []
  | 0, l => l
  | fuel + 1, c :: cs =>
    match tryMd (c :: cs) with
    | some r =>
      '!' :: '[' :: (r.1 ++ ']' :: '(' ::
        (rewritePath lookup image_exts r.2.1 ++ ')' :: subMdGo lookup image_exts fuel r.2.2))
    | none => c :: subMdGo lookup image_exts fuel cs

/-- The inline-form pass
`MarkdownImagePattern.sub(md_img_repl, content)` (source line 184). -/
def subMd (lookup : List (List Char × List Char)) (image_exts : List String)
    (l : List Char) : List Char :=
  subMdGo lookup image_exts l.length l

/-- Fuelled scanner behind the embed-form pass (same fuel discipline as
`subMdGo`). -/
def subWikiGo (lookup : List (List Char × List Char)) (image_exts : List String) :
    Nat → List Char → List Char
  | _, [] => []
  | 0, l => l
  | fuel + 1, c :: cs =>
    match tryWiki (c :: cs) with
    | some r =>
      wikiRepl lookup image_exts r.1 r.2.1 r.2.2.1 r.2.2.2.1 ++
        subWikiGo lookup image_exts fuel r.2.2.2.2
    | none => c :: subWikiGo lookup image_exts fuel cs

/-- The embed-form pass `WikiLinkPattern.sub(wiki_repl, content)`
(source line 185). -/
def subWiki (lookup : List (List Char × List Char)) (image_exts : List String)
    (l : List Char) : List Char :=
  subWikiGo lookup image_exts l.length l

/-- Fuel adequacy: past `l.length` rounds the fuel amount is
irrelevant, so the wrapper computes the unbounded scan. -/
theorem subMdGo_fuel (lookup : List (List Char × List Char)) (image_exts : List String) :
    ∀ (f : Nat) {g : Nat} {l : List Char}, l.length ≤ f → l.length ≤ g →
      subMdGo lookup image_exts f l = subMdGo lookup image_exts g l := by
  intro f
  induction f using Nat.strong_induction_on with
  | _ f ih =>
    intro g l h1 h2
    match l with
    | [] =>
      cases f <;> cases g <;> rfl
    | c :: cs =>
      cases f with
      | zero => exact absurd h1 (by simp)
      | succ g1 =>
        cases g with
        | zero => exact absurd h2 (by simp)
        | succ g2 =>
          rw [subMdGo, subMdGo]
          cases htry : tryMd (c :: cs) with
          | some r =>
            dsimp only
            have hlen := tryMd_len htry
            rw [ih g1 (by omega) (g := g2) (l := r.2.2)
              (by simp only [List.length_cons] at h1 hlen; omega)
              (by simp only [List.length_cons] at h2 hlen; omega)]
          | none =>
            dsimp only
            rw [ih g1 (by omega) (g := g2) (l := cs) (by simpa using h1)
              (by simpa using h2)]

/-- Fuel adequacy for the embed-form scanner. -/
theorem subWikiGo_fuel (lookup : List (List Char × List Char))
    (image_exts : List String) :
    ∀ (f : Nat) {g : Nat} {l : List Char}, l.length ≤ f → l.length ≤ g →
      subWikiGo lookup image_exts f l = subWikiGo lookup image_exts g l := by
  intro f
  induction f using Nat.strong_induction_on with
  | _ f ih =>
    intro g l h1 h2
    match l with
    | [] =>
      cases f <;> cases g <;> rfl
    | c :: cs =>
      cases f with
      | zero => exact absurd h1 (by simp)
      | succ g1 =>
        cases g with
        | zero => exact absurd h2 (by simp)
        | succ g2 =>
          rw [subWikiGo, subWikiGo]
          cases htry : tryWiki (c :: cs) with
          | some r =>
            dsimp only
            have hlen := tryWiki_len htry
            rw [ih g1 (by omega) (g := g2) (l := r.2.2.2.2)
              (by simp only [List.length_cons] at h1 hlen; omega)
              (by simp only [List.length_cons] at h2 hlen; omega)]
          | none =>
            dsimp only
            rw [ih g1 (by omega) (g := g2) (l := cs) (by simpa using h1)
              (by simpa using h2)]

/-- Does `MarkdownImagePattern` match anywhere in the input? -/
def mdHasMatch : List Char → Bool
  | [] => false
  | c :: cs =>
    match tryMd (c :: cs) with
    | some _ => true
    | none => mdHasMatch cs

/-- Does `WikiLinkPattern` match anywhere in the input? -/
def wikiHasMatch : List Char → Bool
  | [] => false
  | c :: cs =>
    match tryWiki (c :: cs) with
    | some _ => true
    | none => wikiHasMatch cs

/-- `fix_markdown_links_in_content(content, vault, rename_map,
image_exts)` (source lines 112-186).  The `vault` parameter is unused in
the source body and is omitted. -/
def fix_markdown_links_in_content (content : String) (rename_map : List (JPath × JPath))
    (image_exts : List String) : String :=
  let lookup := buildBaseLookup rename_map
  ⟨subWiki lookup image_exts (subMd lookup image_exts content.data)⟩

/-! ### `process_markdown_files` (source lines 188-207) -/

/-- `s.endswith(t)` on strings. -/
def endsWithS (s t : String) : Bool := endsWithL s.data t.data

/-- `path.write_text(v)` on the document store (a dict-like association
list from path to content). -/
def sinsert : List (String × String) → String → String → List (String × String)
  | [], k, v => [(k, v)]
  | (k', v') :: rest, k, v =>
    if k' = k then (k', v) :: rest else (k', v') :: sinsert rest k v

/-- The loop body of `process_markdown_files` over the snapshot of
`.md` entries, threading the document store: on a changed document in
apply mode, first write the `.bak` backup (only if absent), then
overwrite the document. -/
def pmfGo (rename_map : List (JPath × JPath)) (image_exts : List String)
    (dry_run : Bool) :
    List (String × String) → List (String × String) → List String × List (String × String)
  | [], store => ([], store)
  | (p, orig) :: rest, store =>
    let updated := fix_markdown_links_in_content orig rename_map image_exts
    if updated ≠ orig then
      let store1 :=
        if dry_run then store
        else
          let bak := p ++ ".bak"
          let store0 :=
            if (store.find? (fun e => e.1 = bak)).isSome then store
            else sinsert store bak orig
          sinsert store0 p updated
      let r := pmfGo rename_map image_exts dry_run rest store1
      (p :: r.1, r.2)
    else pmfGo rename_map image_exts dry_run rest store

/-- `process_markdown_files(vault, rename_map, dry_run, image_exts)`
(source lines 188-207): the `vault.rglob("*.md")` walk is the store's
entries whose path ends in `.md` (backup files end in `.md.bak`, so a
run's own backups are never revisited); returns the `modified` list and
the store after the run. -/
def process_markdown_files (store : List (String × String))
    (rename_map : List (JPath × JPath)) (dry_run : Bool) (image_exts : List String) :
    List String × List (String × String) :=
  pmfGo rename_map image_exts dry_run
    (store.filter (fun e => endsWithS e.1 ".md")) store

/-! ### Properties of the normalizer -/

/-- Does the list start with the two characters `20`? -/
def starts20 : List Char → Bool
  | '2' :: '0' :: _ => true
  | _ => false

/-- Does the list start with a hyphen? -/
def startsHy : List Char → Bool
  | '-' :: _ => true
  | _ => false

theorem starts20_eq (l : List Char) :
    starts20 l = true ↔ ∃ t, l = '2' :: '0' :: t := by
  unfold starts20
  split
  · next t => exact ⟨fun _ => ⟨t, rfl⟩, fun _ => rfl⟩
  · next hno =>
    constructor
    · intro h; exact absurd h (by simp)
    · intro ⟨t, ht⟩; exact ((hno t ht).elim : _)

theorem startsHy_eq (l : List Char) :
    startsHy l = true ↔ ∃ t, l = '-' :: t := by
  unfold startsHy
  split
  · next t => exact ⟨fun _ => ⟨t, rfl⟩, fun _ => rfl⟩
  · next hno =>
    constructor
    · intro h; exact absurd h (by simp)
    · intro ⟨t, ht⟩; exact ((hno t ht).elim : _)

theorem has20_cons (c : Char) (l : List Char) :
    has20 (c :: l) = (decide (c = '%') && starts20 l || has20 l) := by
  conv_lhs => rw [has20.eq_def]
  split
  · next heq =>
    injection heq with h1 h2
    subst h1; subst h2
    simp [starts20]
  · next c' rest hno heq =>
    injection heq with h1 h2
    subst h1; subst h2
    suffices h : (decide (c = '%') && starts20 l) = false by
      rw [h, Bool.false_or]
    by_cases hc : c = '%'
    · subst hc
      cases hs : starts20 l
      · simp
      · obtain ⟨t, ht⟩ := (starts20_eq l).mp hs
        exact ((hno t rfl ht).elim : _)
    · simp [hc]
  · next heq => exact absurd heq (by simp)

theorem hasDoubleHy_cons (c : Char) (l : List Char) :
    hasDoubleHy (c :: l) = (decide (c = '-') && startsHy l || hasDoubleHy l) := by
  conv_lhs => rw [hasDoubleHy.eq_def]
  split
  · next heq =>
    injection heq with h1 h2
    subst h1; subst h2
    simp [startsHy]
  · next c' rest hno heq =>
    injection heq with h1 h2
    subst h1; subst h2
    suffices h : (decide (c = '-') && startsHy l) = false by
      rw [h, Bool.false_or]
    by_cases hc : c = '-'
    · subst hc
      cases hs : startsHy l
      · simp
      · obtain ⟨t, ht⟩ := (startsHy_eq l).mp hs
        exact ((hno t rfl ht).elim : _)
    · simp [hc]
  · next heq => exact absurd heq (by simp)

/-- `replace20` never emits a fresh `20` at the head: if the input does
not start with `20`, neither does the output. -/
theorem replace20_starts20 {r : List Char} (hr : starts20 r = false) :
    starts20 (replace20 r) = false := by
  cases hs : starts20 (replace20 r)
  · rfl
  · exfalso
    obtain ⟨t, ht⟩ := (starts20_eq _).mp hs
    revert ht
    unfold replace20
    split
    · intro ht; simp at ht
    · next c rest hno =>
      intro ht
      injection ht with h1 h2
      subst h1
      revert h2
      unfold replace20
      split
      · intro h2; simp at h2
      · next d r3 hno2 =>
        intro h2
        injection h2 with h3 h4
        subst h3
        rw [(starts20_eq _).mpr ⟨r3, rfl⟩] at hr
        exact absurd hr (by simp)
      · intro h2; simp at h2
    · intro ht; simp at ht

/-- The output of `replace20` never contains `%20`. -/
theorem replace20_no20 (l : List Char) : has20 (replace20 l) = false := by
  induction l using replace20.induct with
  | case1 rest ih =>
    rw [replace20, has20_cons]
    simp only [ih, Bool.or_false]
    simp
  | case2 c rest hno ih =>
    have hr : replace20 (c :: rest) = c :: replace20 rest := by
      rw [replace20]
      exact hno
    rw [hr, has20_cons]
    simp only [ih, Bool.or_false]
    by_cases hc : c = '%'
    · subst hc
      have hs : starts20 rest = false := by
        cases hs2 : starts20 rest
        · rfl
        · obtain ⟨t, ht⟩ := (starts20_eq _).mp hs2
          exact ((hno t rfl ht).elim : _)
      rw [replace20_starts20 hs]
      simp
    · simp [hc]
  | case3 => rfl

/-- If no `%20` occurs, `replace20` is the identity. -/
theorem replace20_id {l : List Char} (h : has20 l = false) : replace20 l = l := by
  induction l using replace20.induct with
  | case1 rest ih => simp [has20] at h
  | case2 c rest hno ih =>
    rw [has20_cons] at h
    have hr : replace20 (c :: rest) = c :: replace20 rest := by
      rw [replace20]
      exact hno
    rw [hr, ih (by simp at h; exact h.2)]
  | case3 => rfl

theorem has20_tail {c : Char} {l : List Char} (h : has20 (c :: l) = false) :
    has20 l = false := by
  rw [has20_cons] at h
  simp only [Bool.or_eq_false_iff] at h
  exact h.2

/-- Every character the whitespace-collapsing pass emits is
non-whitespace. -/
theorem collapseWs_mem {c : Char} {b : Bool} {l : List Char}
    (hc : c ∈ collapseWsAux b l) : isSpaceC c = false := by
  induction b, l using collapseWsAux.induct with
  | case1 b => simp [collapseWsAux] at hc
  | case2 d rest hsp ih =>
    simp only [collapseWsAux, if_pos hsp, if_pos rfl] at hc
    exact ih hc
  | case3 b d rest hsp hb ih =>
    simp only [collapseWsAux, if_pos hsp, if_neg hb, List.mem_cons] at hc
    rcases hc with hc | hc
    · subst hc; decide
    · exact ih hc
  | case4 b d rest hsp ih =>
    simp only [collapseWsAux, if_neg hsp, List.mem_cons] at hc
    rcases hc with hc | hc
    · subst hc; simpa using hsp
    · exact ih hc

/-- The whitespace-collapsing pass leaves no whitespace behind. -/
theorem hasWs_collapseWsAux (b : Bool) (l : List Char) :
    hasWs (collapseWsAux b l) = false := by
  simp only [hasWs, List.any_eq_false]
  intro c hc
  simp [collapseWs_mem hc]

theorem collapseWs_false_head (r : List Char) :
    (collapseWsAux false r).head? =
      r.head?.map (fun c => if isSpaceC c then '-' else c) := by
  cases r with
  | nil => rfl
  | cons c rest =>
    by_cases hsp : isSpaceC c <;> simp [collapseWsAux, hsp]

theorem collapseWs_starts20 {r : List Char} (hr : starts20 r = false) :
    starts20 (collapseWsAux false r) = false := by
  cases hs : starts20 (collapseWsAux false r)
  · rfl
  exfalso
  obtain ⟨t, ht⟩ := (starts20_eq _).mp hs
  have h1 := collapseWs_false_head r
  rw [ht] at h1
  cases r with
  | nil => simp at h1
  | cons c rest =>
    simp only [List.head?_cons, Option.map_some'] at h1
    have hc : c = '2' := by
      by_cases hsp : isSpaceC c
      · simp [hsp] at h1
      · simpa [hsp] using h1.symm
    subst hc
    have he : collapseWsAux false ('2' :: rest) = '2' :: collapseWsAux false rest := by
      simp [collapseWsAux, show isSpaceC '2' = false from by decide]
    rw [he] at ht
    injection ht with _ ht2
    have h2 := collapseWs_false_head rest
    rw [ht2] at h2
    cases rest with
    | nil => simp at h2
    | cons d r2 =>
      simp only [List.head?_cons, Option.map_some'] at h2
      have hd : d = '0' := by
        by_cases hsp : isSpaceC d
        · simp [hsp] at h2
        · simpa [hsp] using h2.symm
      subst hd
      rw [(starts20_eq _).mpr ⟨r2, rfl⟩] at hr
      simp at hr

/-- The whitespace-collapsing pass creates no `%20`. -/
theorem collapseWs_no20 (b : Bool) (l : List Char) (h : has20 l = false) :
    has20 (collapseWsAux b l) = false := by
  induction b, l using collapseWsAux.induct with
  | case1 b => rfl
  | case2 c rest hsp ih => simpa [collapseWsAux, hsp] using ih (has20_tail h)
  | case3 b c rest hsp hb ih =>
    simp only [collapseWsAux, hsp, if_pos, if_neg hb]
    rw [has20_cons]
    simp only [ih (has20_tail h), Bool.or_false]
    simp
  | case4 b c rest hsp ih =>
    simp only [collapseWsAux, if_neg hsp]
    rw [has20_cons]
    simp only [ih (has20_tail h), Bool.or_false]
    by_cases hc : c = '%'
    · subst hc
      have hr : starts20 rest = false := by
        cases hs2 : starts20 rest
        · rfl
        · rw [has20_cons, hs2] at h
          simp at h
      rw [collapseWs_starts20 hr]
      simp
    · simp [hc]

/-- On whitespace-free input the whitespace-collapsing pass is the
identity. -/
theorem collapseWs_id {l : List Char} (b : Bool) (h : hasWs l = false) :
    collapseWsAux b l = l := by
  induction l generalizing b with
  | nil => rfl
  | cons c rest ih =>
    simp only [hasWs, List.any_cons, Bool.or_eq_false_iff] at h
    simp only [collapseWsAux, if_neg (by simp [h.1] : ¬ isSpaceC c = true)]
    rw [ih _ (by simpa [hasWs] using h.2)]

/-- The hyphen-collapsing pass emits only characters of its input. -/
theorem collapseHy_mem {c : Char} {b : Bool} {l : List Char}
    (hc : c ∈ collapseHyAux b l) : c ∈ l := by
  induction b, l using collapseHyAux.induct with
  | case1 b => simp [collapseHyAux] at hc
  | case2 d rest hhy ih =>
    simp only [collapseHyAux, if_pos hhy, if_pos rfl] at hc
    exact List.mem_cons_of_mem _ (ih hc)
  | case3 b d rest hhy hb ih =>
    simp only [collapseHyAux, if_pos hhy, if_neg hb, List.mem_cons] at hc
    rcases hc with hc | hc
    · subst hc
      have : d = '-' := by simpa [isHyC] using hhy
      simp [this]
    · exact List.mem_cons_of_mem _ (ih hc)
  | case4 b d rest hhy ih =>
    simp only [collapseHyAux, if_neg hhy, List.mem_cons] at hc
    rcases hc with hc | hc
    · simp [hc]
    · exact List.mem_cons_of_mem _ (ih hc)

/-- The hyphen-collapsing pass leaves no run of two hyphens, and with
the flag set its output cannot start with a hyphen. -/
theorem collapseHy_noDH (b : Bool) (l : List Char) :
    hasDoubleHy (collapseHyAux b l) = false ∧
      (b = true → (collapseHyAux b l).head? ≠ some '-') := by
  induction b, l using collapseHyAux.induct with
  | case1 b => exact ⟨rfl, by simp [collapseHyAux]⟩
  | case2 d rest hhy ih =>
    simpa only [collapseHyAux, if_pos hhy, if_pos rfl] using ih
  | case3 b d rest hhy hb ih =>
    simp only [collapseHyAux, if_pos hhy, if_neg hb]
    constructor
    · rw [hasDoubleHy_cons]
      have h1 : startsHy (collapseHyAux true rest) = false := by
        cases hs : startsHy (collapseHyAux true rest)
        · rfl
        · obtain ⟨t, ht⟩ := (startsHy_eq _).mp hs
          exact absurd (ht ▸ rfl) (ih.2 rfl)
      rw [h1, (ih).1]
      simp
    · intro hbt
      exact absurd hbt hb
  | case4 b d rest hhy ih =>
    simp only [collapseHyAux, if_neg hhy]
    have hd : ¬ d = '-' := by simpa [isHyC] using hhy
    constructor
    · rw [hasDoubleHy_cons]
      rw [(ih).1]
      simp [hd]
    · intro _
      simp [hd]

theorem collapseHy_false_head (r : List Char) :
    (collapseHyAux false r).head? = r.head? := by
  cases r with
  | nil => rfl
  | cons c rest =>
    by_cases hhy : isHyC c
    · have : c = '-' := by simpa [isHyC] using hhy
      subst this
      simp only [collapseHyAux, List.head?_cons]
      split <;> simp
    · simp [collapseHyAux, hhy]

theorem collapseHy_starts20 {r : List Char} (hr : starts20 r = false) :
    starts20 (collapseHyAux false r) = false := by
  cases hs : starts20 (collapseHyAux false r)
  · rfl
  exfalso
  obtain ⟨t, ht⟩ := (starts20_eq _).mp hs
  have h1 := collapseHy_false_head r
  rw [ht] at h1
  cases r with
  | nil => simp at h1
  | cons c rest =>
    simp only [List.head?_cons] at h1
    have hc : c = '2' := by simpa using h1.symm
    subst hc
    have he : collapseHyAux false ('2' :: rest) = '2' :: collapseHyAux false rest := by
      simp [collapseHyAux, isHyC]
    rw [he] at ht
    injection ht with _ ht2
    have h2 := collapseHy_false_head rest
    rw [ht2] at h2
    cases rest with
    | nil => simp at h2
    | cons d r2 =>
      simp only [List.head?_cons] at h2
      have hd : d = '0' := by simpa using h2.symm
      subst hd
      rw [(starts20_eq _).mpr ⟨r2, rfl⟩] at hr
      simp at hr

/-- The hyphen-collapsing pass creates no `%20`. -/
theorem collapseHy_no20 (b : Bool) (l : List Char) (h : has20 l = false) :
    has20 (collapseHyAux b l) = false := by
  induction b, l using collapseHyAux.induct with
  | case1 b => rfl
  | case2 d rest hhy ih =>
    simpa only [collapseHyAux, if_pos hhy, if_pos rfl] using ih (has20_tail h)
  | case3 b d rest hhy hb ih =>
    simp only [collapseHyAux, if_pos hhy, if_neg hb]
    rw [has20_cons]
    simp only [ih (has20_tail h), Bool.or_false]
    simp
  | case4 b d rest hhy ih =>
    simp only [collapseHyAux, if_neg hhy]
    rw [has20_cons]
    simp only [ih (has20_tail h), Bool.or_false]
    by_cases hc : d = '%'
    · subst hc
      have hr : starts20 rest = false := by
        cases hs2 : starts20 rest
        · rfl
        · rw [has20_cons, hs2] at h
          simp at h
      rw [collapseHy_starts20 hr]
      simp
    · simp [hc]

/-- On input with no double hyphen the hyphen-collapsing pass is the
identity (with the flag set, provided the input does not begin with a
hyphen). -/
theorem collapseHy_id {l : List Char} (h : hasDoubleHy l = false) :
    collapseHyAux false l = l ∧
      (l.head? ≠ some '-' → collapseHyAux true l = l) := by
  induction l with
  | nil => exact ⟨rfl, fun _ => rfl⟩
  | cons c rest ih =>
    rw [hasDoubleHy_cons] at h
    simp only [Bool.or_eq_false_iff] at h
    obtain ⟨hcs, hrest⟩ := h
    by_cases hc : c = '-'
    · subst hc
      simp only [decide_eq_true_eq, Bool.and_eq_false_iff] at hcs
      have hcs : startsHy rest = false := by
        rcases hcs with hcs | hcs
        · simp at hcs
        · exact hcs
      have hhd : rest.head? ≠ some '-' := by
        intro habs
        cases rest with
        | nil => simp at habs
        | cons d r2 =>
          simp only [List.head?_cons, Option.some.injEq] at habs
          rw [(startsHy_eq _).mpr ⟨r2, by rw [habs]⟩] at hcs
          simp at hcs
      constructor
      · simp only [collapseHyAux, if_pos (by simp [isHyC] : isHyC '-' = true), if_neg
          (by simp : ¬ false = true)]
        rw [(ih hrest).2 hhd]
      · intro habs
        exact absurd rfl habs
    · have hhy : ¬ isHyC c = true := by simp [isHyC, hc]
      constructor
      · simp only [collapseHyAux, if_neg hhy]
        rw [(ih hrest).1]
      · intro _
        simp only [collapseHyAux, if_neg hhy]
        rw [(ih hrest).1]

theorem stripEnds_isInfix (p : Char → Bool) (l : List Char) : stripEnds p l <:+: l := by
  unfold stripEnds
  have h1 : l.dropWhile p <:+ l := List.dropWhile_suffix p
  have h2 : ((l.dropWhile p).reverse.dropWhile p).reverse <+: l.dropWhile p := by
    rw [← List.reverse_suffix]
    simpa using List.dropWhile_suffix (l := (l.dropWhile p).reverse) p
  exact h2.isInfix.trans h1.isInfix

theorem has20_append_left {x : List Char} (t : List Char) (hx : has20 x = true) :
    has20 (x ++ t) = true := by
  induction x using has20.induct with
  | case1 rest =>
    simp only [List.cons_append]
    rw [has20_cons]
    simp [starts20]
  | case2 c rest hno ih =>
    rw [has20_cons] at hx
    have hr : has20 rest = true := by
      rcases Bool.or_eq_true_iff.mp hx with h | h
      · obtain ⟨t', ht'⟩ := (starts20_eq _).mp (Bool.and_eq_true_iff.mp h).2
        exact ((hno t' (by simpa using (Bool.and_eq_true_iff.mp h).1) ht').elim : _)
      · exact h
    simp only [List.cons_append]
    rw [has20_cons, ih hr]
    simp
  | case3 => simp [has20] at hx

theorem has20_append_right {x : List Char} (s : List Char) (hx : has20 x = true) :
    has20 (s ++ x) = true := by
  induction s with
  | nil => simpa using hx
  | cons c s' ih =>
    simp only [List.cons_append]
    rw [has20_cons, ih]
    simp

theorem has20_of_isInfix {m l : List Char} (h : m <:+: l) (hm : has20 m = true) :
    has20 l = true := by
  obtain ⟨s, t, rfl⟩ := h
  rw [List.append_assoc]
  exact has20_append_right s (has20_append_left t hm)

theorem hasDoubleHy_append_left {x : List Char} (t : List Char)
    (hx : hasDoubleHy x = true) : hasDoubleHy (x ++ t) = true := by
  induction x using hasDoubleHy.induct with
  | case1 rest =>
    simp only [List.cons_append]
    rw [hasDoubleHy_cons]
    simp [startsHy]
  | case2 c rest hno ih =>
    rw [hasDoubleHy_cons] at hx
    have hr : hasDoubleHy rest = true := by
      rcases Bool.or_eq_true_iff.mp hx with h | h
      · obtain ⟨t', ht'⟩ := (startsHy_eq _).mp (Bool.and_eq_true_iff.mp h).2
        exact ((hno t' (by simpa using (Bool.and_eq_true_iff.mp h).1) ht').elim : _)
      · exact h
    simp only [List.cons_append]
    rw [hasDoubleHy_cons, ih hr]
    simp
  | case3 => simp [hasDoubleHy] at hx

theorem hasDoubleHy_append_right {x : List Char} (s : List Char)
    (hx : hasDoubleHy x = true) : hasDoubleHy (s ++ x) = true := by
  induction s with
  | nil => simpa using hx
  | cons c s' ih =>
    simp only [List.cons_append]
    rw [hasDoubleHy_cons, ih]
    simp

theorem hasDoubleHy_of_isInfix {m l : List Char} (h : m <:+: l)
    (hm : hasDoubleHy m = true) : hasDoubleHy l = true := by
  obtain ⟨s, t, rfl⟩ := h
  rw [List.append_assoc]
  exact hasDoubleHy_append_right s (hasDoubleHy_append_left t hm)

theorem head?_dropWhile_false {p : Char → Bool} {l : List Char} {c : Char}
    (h : (l.dropWhile p).head? = some c) : p c = false := by
  induction l with
  | nil => simp at h
  | cons a rest ih =>
    rw [List.dropWhile_cons] at h
    split at h
    · exact ih h
    · next hp =>
      simp only [List.head?_cons, Option.some.injEq] at h
      subst h
      simpa using hp

theorem stripEnds_head {p : Char → Bool} {l : List Char} {c : Char}
    (h : (stripEnds p l).head? = some c) : p c = false := by
  unfold stripEnds at h
  rw [List.head?_reverse] at h
  -- `h : ((l.dropWhile p).reverse.dropWhile p).getLast? = some c`
  set a := l.dropWhile p with ha
  have hne : a.reverse.dropWhile p ≠ [] := by
    intro habs
    rw [habs] at h
    simp at h
  obtain ⟨w, hw⟩ : ∃ w, w ++ a.reverse.dropWhile p = a.reverse :=
    List.dropWhile_suffix p
  have h2 : a.reverse.getLast? = some c := by
    rw [← hw, List.getLast?_append]
    rw [Option.or_of_isSome]
    · exact h
    · rw [h]; rfl
  rw [List.getLast?_reverse] at h2
  exact head?_dropWhile_false (ha ▸ h2)

theorem stripEnds_getLast {p : Char → Bool} {l : List Char} {c : Char}
    (h : (stripEnds p l).getLast? = some c) : p c = false := by
  unfold stripEnds at h
  rw [List.getLast?_reverse] at h
  exact head?_dropWhile_false h

theorem dropWhile_eq_self_of_head {p : Char → Bool} {l : List Char}
    (h : ∀ c, l.head? = some c → p c = false) : l.dropWhile p = l := by
  cases l with
  | nil => rfl
  | cons a rest =>
    rw [List.dropWhile_cons, if_neg]
    simp [h a rfl]

theorem stripEnds_id {p : Char → Bool} {l : List Char}
    (h1 : ∀ c, l.head? = some c → p c = false)
    (h2 : ∀ c, l.getLast? = some c → p c = false) : stripEnds p l = l := by
  unfold stripEnds
  rw [dropWhile_eq_self_of_head h1]
  rw [dropWhile_eq_self_of_head (fun c hc => h2 c (by simpa using hc))]
  exact List.reverse_reverse l

/-! ### The normalizer's output shape and idempotence -/

/-- The output of `normalize_hyphens` contains no whitespace. -/
theorem normalizeL_noWs (l : List Char) : hasWs (normalizeL l) = false := by
  unfold normalizeL
  have hY : hasWs (collapseHyAux false (collapseWsAux false (replace20 l))) = false := by
    simp only [hasWs, List.any_eq_false]
    intro c hc
    have := collapseWs_mem (collapseHy_mem hc)
    simp [this]
  simp only [hasWs, List.any_eq_false] at hY ⊢
  intro c hc
  exact hY c ((stripEnds_isInfix _ _).subset hc)

/-- The output of `normalize_hyphens` contains no `%20`. -/
theorem normalizeL_no20 (l : List Char) : has20 (normalizeL l) = false := by
  unfold normalizeL
  have hY : has20 (collapseHyAux false (collapseWsAux false (replace20 l))) = false :=
    collapseHy_no20 _ _ (collapseWs_no20 _ _ (replace20_no20 l))
  cases hs : has20 (stripEnds isHyC (collapseHyAux false (collapseWsAux false (replace20 l))))
  · rfl
  · rw [has20_of_isInfix (stripEnds_isInfix _ _) hs] at hY
    exact hY

/-- The output of `normalize_hyphens` contains no double hyphen. -/
theorem normalizeL_noDH (l : List Char) : hasDoubleHy (normalizeL l) = false := by
  unfold normalizeL
  have hY := (collapseHy_noDH false (collapseWsAux false (replace20 l))).1
  cases hs : hasDoubleHy (stripEnds isHyC (collapseHyAux false (collapseWsAux false (replace20 l))))
  · rfl
  · rw [hasDoubleHy_of_isInfix (stripEnds_isInfix _ _) hs] at hY
    exact hY

/-- The output of `normalize_hyphens` does not begin with a hyphen. -/
theorem normalizeL_head (l : List Char) {c : Char}
    (h : (normalizeL l).head? = some c) : c ≠ '-' := by
  have := stripEnds_head (p := isHyC) h
  simpa [isHyC] using this

/-- The output of `normalize_hyphens` does not end with a hyphen. -/
theorem normalizeL_getLast (l : List Char) {c : Char}
    (h : (normalizeL l).getLast? = some c) : c ≠ '-' := by
  have := stripEnds_getLast (p := isHyC) h
  simpa [isHyC] using this

/-- `normalize_hyphens` is idempotent at the character-list level. -/
theorem normalizeL_idem (l : List Char) : normalizeL (normalizeL l) = normalizeL l := by
  conv_lhs => rw [normalizeL]
  rw [replace20_id (normalizeL_no20 l)]
  rw [collapseWs_id false (normalizeL_noWs l)]
  rw [(collapseHy_id (normalizeL_noDH l)).1]
  exact stripEnds_id
    (fun c hc => by simpa [isHyC] using normalizeL_head l hc)
    (fun c hc => by simpa [isHyC] using normalizeL_getLast l hc)

/-! ### Properties of the collision resolver -/

/-- Decimal value of a digit character. -/
def digitVal (c : Char) : Nat := c.toNat - 48

/-- Decimal value of a digit string (the decoder for `natChars`). -/
def charsVal (l : List Char) : Nat := l.foldl (fun a c => a * 10 + digitVal c) 0

theorem digitVal_digitC {n : Nat} (h : n < 10) : digitVal (digitC n) = n := by
  interval_cases n <;> rfl

theorem charsVal_append (xs : List Char) (d : Char) :
    charsVal (xs ++ [d]) = charsVal xs * 10 + digitVal d := by
  unfold charsVal
  rw [List.foldl_append]
  rfl

theorem charsVal_natCharsGo :
    ∀ (fuel n : Nat), n < fuel → charsVal (natCharsGo fuel n) = n := by
  intro fuel
  induction fuel with
  | zero => intro n h; omega
  | succ fuel ih =>
    intro n h
    rw [natCharsGo]
    by_cases h10 : n < 10
    · rw [if_pos h10]
      show 0 * 10 + digitVal (digitC n) = n
      rw [digitVal_digitC h10]
      omega
    · rw [if_neg h10]
      have hdiv : n / 10 < fuel := by
        have h1 : n / 10 < n := Nat.div_lt_self (by omega) (by omega)
        omega
      rw [charsVal_append, ih _ hdiv, digitVal_digitC (Nat.mod_lt _ (by omega))]
      omega

/-- `natChars` decodes back to its argument. -/
theorem charsVal_natChars (n : Nat) : charsVal (natChars n) = n :=
  charsVal_natCharsGo (n + 1) n (by omega)

theorem natChars_inj {a b : Nat} (h : natChars a = natChars b) : a = b := by
  have := congrArg charsVal h
  rwa [charsVal_natChars, charsVal_natChars] at this

theorem candName_inj {stem sfx : List Char} {a b : Nat}
    (h : candName stem sfx a = candName stem sfx b) : a = b := by
  unfold candName at h
  have h1 := List.append_cancel_left h
  injection h1 with _ h2
  exact natChars_inj (List.append_cancel_right h2)

theorem candPath_inj {target : JPath} {a b : Nat}
    (h : candPath target a = candPath target b) : a = b := by
  unfold candPath at h
  injection h with _ h2
  injection h2 with h3
  exact candName_inj h3

/-- `path.exists()` as membership among the snapshot's path keys. -/
theorem FS.memP_iff {fs : FS} {p : JPath} :
    FS.memP fs p = true ↔ p ∈ fs.map Prod.fst := by
  unfold FS.memP
  rw [List.any_eq_true]
  constructor
  · intro ⟨e, he, hp⟩
    exact List.mem_map.mpr ⟨e, he, of_decide_eq_true hp⟩
  · intro h
    obtain ⟨e, he, hp⟩ := List.mem_map.mp h
    exact ⟨e, he, decide_eq_true hp⟩

/-- Pigeonhole: among any `fs.length + 1` consecutive candidate paths,
one does not exist in `fs`. -/
theorem exists_free_cand (fs : FS) (target : JPath) (n : Nat) :
    ∃ k, n ≤ k ∧ k < n + (fs.length + 1) ∧ FS.memP fs (candPath target k) = false := by
  by_contra habs
  push_neg at habs
  have hall : ∀ k, n ≤ k → k < n + (fs.length + 1) →
      FS.memP fs (candPath target k) = true := by
    intro k h1 h2
    have := habs k h1 h2
    cases h : FS.memP fs (candPath target k)
    · exact absurd h this
    · rfl
  classical
  set L := (List.range (fs.length + 1)).map (fun i => candPath target (n + i)) with hL
  have hnodup : L.Nodup := by
    refine List.Nodup.map ?_ (List.nodup_range _)
    intro a b hab
    have := candPath_inj hab
    omega
  have hsub : L ⊆ fs.map Prod.fst := by
    intro x hx
    obtain ⟨i, hi, rfl⟩ := List.mem_map.mp hx
    rw [List.mem_range] at hi
    exact FS.memP_iff.mp (hall (n + i) (by omega) (by omega))
  have hlen : L.length = fs.length + 1 := by simp [hL]
  have hcard1 : L.toFinset.card = fs.length + 1 := by
    rw [List.toFinset_card_of_nodup hnodup, hlen]
  have hcard2 : L.toFinset.card ≤ fs.length := by
    calc L.toFinset.card ≤ (fs.map Prod.fst).toFinset.card :=
          Finset.card_le_card (fun x hx =>
            List.mem_toFinset.mpr (hsub (List.mem_toFinset.mp hx)))
      _ ≤ (fs.map Prod.fst).length := List.toFinset_card_le _
      _ = fs.length := List.length_map _ _
  omega

/-- Soundness of the search loop: a returned candidate does not exist,
is `stem-k.ext` for some `k ≥ n`, and every earlier candidate from `n`
on exists. -/
theorem chooseLoop_sound {fs : FS} {target : JPath} :
    ∀ {fuel n : Nat} {cand : JPath}, chooseLoop fs target n fuel = some cand →
      FS.memP fs cand = false ∧
        ∃ k, n ≤ k ∧ cand = candPath target k ∧
          ∀ m, n ≤ m → m < k → FS.memP fs (candPath target m) = true := by
  intro fuel
  induction fuel with
  | zero => intro n cand h; simp [chooseLoop] at h
  | succ fuel ih =>
    intro n cand h
    rw [chooseLoop] at h
    split at h
    · next hmem =>
      obtain ⟨hfree, k, hk1, hk2, hk3⟩ := ih h
      refine ⟨hfree, k, by omega, hk2, ?_⟩
      intro m hm1 hm2
      rcases Nat.eq_or_lt_of_le hm1 with hm | hm
      · rw [← hm]; exact hmem
      · exact hk3 m (by omega) hm2
    · next hmem =>
      injection h with h
      subst h
      refine ⟨by simpa using hmem, n, le_refl n, rfl, ?_⟩
      intro m hm1 hm2
      omega

/-- Completeness of the search loop: with a free candidate in range,
the loop returns a result. -/
theorem chooseLoop_isSome_of_free {fs : FS} {target : JPath} :
    ∀ (fuel n : Nat),
      (∃ k, n ≤ k ∧ k < n + fuel ∧ FS.memP fs (candPath target k) = false) →
      (chooseLoop fs target n fuel).isSome := by
  intro fuel
  induction fuel with
  | zero => intro n ⟨k, h1, h2, _⟩; omega
  | succ fuel ih =>
    intro n ⟨k, h1, h2, h3⟩
    rw [chooseLoop]
    split
    · next hmem =>
      refine ih (n + 1) ⟨k, ?_, by omega, h3⟩
      rcases Nat.eq_or_lt_of_le h1 with hm | hm
      · subst hm; rw [h3] at hmem; exact absurd hmem (by simp)
      · omega
    · simp

/-- The fuelled search always succeeds: `fs.length + 1` rounds are
enough for a snapshot of `fs.length` existing paths. -/
theorem chooseOpt_isSome (fs : FS) (target : JPath) : (chooseOpt fs target).isSome := by
  unfold chooseOpt
  split
  · exact chooseLoop_isSome_of_free _ _ (exists_free_cand fs target 1)
  · simp

/-- `choose_unique_path` never returns a path that exists at call time. -/
theorem choose_not_mem (fs : FS) (target : JPath) :
    FS.memP fs (choose_unique_path fs target) = false := by
  unfold choose_unique_path chooseOpt
  split
  · next hmem =>
    obtain ⟨cand, hcand⟩ := Option.isSome_iff_exists.mp
      (chooseLoop_isSome_of_free _ _ (exists_free_cand fs target 1))
    rw [hcand]
    exact (chooseLoop_sound hcand).1
  · next hmem =>
    simpa using hmem

/-- When the target is free, `choose_unique_path` returns it unchanged. -/
theorem choose_of_not_mem {fs : FS} {target : JPath}
    (h : FS.memP fs target = false) : choose_unique_path fs target = target := by
  unfold choose_unique_path chooseOpt
  rw [if_neg (by simp [h])]
  rfl

/-- When the target exists, `choose_unique_path` returns the first free
numbered candidate `stem-k.ext`, `k ≥ 1`. -/
theorem choose_least {fs : FS} {target : JPath}
    (h : FS.memP fs target = true) :
    ∃ k, 1 ≤ k ∧ choose_unique_path fs target = candPath target k ∧
      FS.memP fs (candPath target k) = false ∧
      ∀ m, 1 ≤ m → m < k → FS.memP fs (candPath target m) = true := by
  unfold choose_unique_path chooseOpt
  rw [if_pos h]
  obtain ⟨cand, hcand⟩ := Option.isSome_iff_exists.mp
    (chooseLoop_isSome_of_free _ _ (exists_free_cand fs target 1))
  rw [hcand]
  obtain ⟨hfree, k, hk1, hk2, hk3⟩ := chooseLoop_sound hcand
  exact ⟨k, hk1, by simpa using hk2, hk2 ▸ hfree, hk3⟩

/-! ### Properties of the planner and the executor -/

/-- Every pair the planner records pairs an enumerated file with the
collision-resolved target for its normalized name. -/
theorem collect_mem {files : List JPath} {fs : FS} {exts : List String}
    {pr : JPath × JPath} (h : pr ∈ collect_image_renames files fs exts) :
    pr.1 ∈ files ∧ pr.2 = choose_unique_path fs ⟨pr.1.dir, ⟨normalizeL pr.1.name.data⟩⟩ := by
  induction files with
  | nil => simp [collect_image_renames] at h
  | cons p rest ih =>
    rw [collect_image_renames] at h
    split at h
    · split at h
      · rcases List.mem_cons.mp h with h | h
        · subst h
          exact ⟨List.mem_cons_self _ _, rfl⟩
        · obtain ⟨h1, h2⟩ := ih h
          exact ⟨List.mem_cons_of_mem _ h1, h2⟩
      · obtain ⟨h1, h2⟩ := ih h
        exact ⟨List.mem_cons_of_mem _ h1, h2⟩
    · obtain ⟨h1, h2⟩ := ih h
      exact ⟨List.mem_cons_of_mem _ h1, h2⟩

/-- Planner targets never exist on disk at planning time. -/
theorem collect_value_not_mem {files : List JPath} {fs : FS} {exts : List String}
    {pr : JPath × JPath} (h : pr ∈ collect_image_renames files fs exts) :
    FS.memP fs pr.2 = false := by
  rw [(collect_mem h).2]
  exact choose_not_mem fs _

theorem FS.get_cons (a : JPath) (c : Nat) (fs : FS) (q : JPath) :
    FS.get ((a, c) :: fs) q = if q = a then some c else FS.get fs q := by
  unfold FS.get
  by_cases hq : q = a
  · subst hq
    rw [List.find?_cons_of_pos _ (by simp)]
    simp
  · rw [List.find?_cons_of_neg _ (by simpa using fun h => hq h.symm)]
    simp [hq]

theorem FS.get_erase (fs : FS) (p q : JPath) :
    FS.get (FS.erase fs p) q = if q = p then none else FS.get fs q := by
  induction fs with
  | nil => simp [FS.erase, FS.get]
  | cons e rest ih =>
    obtain ⟨a, c⟩ := e
    unfold FS.erase at ih ⊢
    rw [List.filter_cons]
    by_cases ha : a = p
    · rw [if_neg (by simp [ha])]
      rw [ih, FS.get_cons]
      by_cases hq : q = p
      · simp [hq, ha]
      · simp [hq, show ¬ q = a from by rw [ha]; exact hq]
    · rw [if_pos (by simp [ha])]
      rw [FS.get_cons, FS.get_cons, ih]
      by_cases hq : q = a
      · simp [hq, show ¬ a = p from ha]
      · simp [hq]

theorem FS.memP_eq_get (fs : FS) (p : JPath) :
    FS.memP fs p = (FS.get fs p).isSome := by
  induction fs with
  | nil => rfl
  | cons e rest ih =>
    obtain ⟨a, c⟩ := e
    rw [FS.get_cons]
    unfold FS.memP at ih ⊢
    rw [List.any_cons]
    by_cases hq : p = a
    · subst hq
      simp
    · have ha : ¬ a = p := fun h => hq h.symm
      simp only [if_neg hq, decide_eq_false ha, Bool.false_or]
      exact ih

theorem osReplace_none {fs : FS} {old new : JPath} :
    osReplace fs old new = none ↔ FS.get fs old = none := by
  unfold osReplace
  split
  · next heq => simp [heq]
  · next c heq => simp [heq]

/-- The pointwise effect of a successful `os.replace`. -/
theorem osReplace_get {fs fs' : FS} {old new : JPath}
    (h : osReplace fs old new = some fs') (q : JPath) :
    FS.get fs' q =
      if q = new then FS.get fs old else if q = old then none else FS.get fs q := by
  unfold osReplace at h
  split at h
  · exact absurd h (by simp)
  · next c heq =>
    injection h with h
    subst h
    rw [FS.get_cons, FS.get_erase, FS.get_erase]
    by_cases h1 : q = new
    · simp [h1, heq]
    · simp [h1]

/-- In dry-run mode the executor reports every pair and mutates
nothing. -/
theorem apply_renames_dry (pairs : List (JPath × JPath)) (fs : FS) :
    apply_renames pairs true fs = (.ok pairs, fs) := by
  induction pairs with
  | nil => rfl
  | cons pr rest ih =>
    obtain ⟨old, new⟩ := pr
    rw [apply_renames, if_pos rfl, ih]
    rfl

/-- An apply-mode failure happens at the first pair whose source is
missing: the prefix before it was applied and keeps its effects (no
rollback), and nothing after it runs. -/
theorem apply_renames_error {pairs : List (JPath × JPath)} {fs : FS} {e : JPath}
    (h : (apply_renames pairs false fs).1 = .error e) :
    ∃ pre new post, pairs = pre ++ (e, new) :: post ∧
      (apply_renames pre false fs).1 = .ok pre ∧
      (apply_renames pairs false fs).2 = (apply_renames pre false fs).2 ∧
      FS.get ((apply_renames pre false fs).2) e = none := by
  induction pairs generalizing fs with
  | nil => simp [apply_renames] at h
  | cons pr rest ih =>
    obtain ⟨old, new⟩ := pr
    rw [apply_renames, if_neg (by simp)] at h ⊢
    cases hrep : osReplace fs old new with
    | none =>
      rw [hrep] at h
      dsimp only at h ⊢
      injection h with h
      subst h
      exact ⟨[], new, rest, rfl, rfl, rfl, osReplace_none.mp hrep⟩
    | some fs1 =>
      rw [hrep] at h
      dsimp only at h ⊢
      have hr : (apply_renames rest false fs1).1 = .error e := by
        cases hres : (apply_renames rest false fs1).1 with
        | ok l => rw [hres] at h; simp [Except.map] at h
        | error e' => rw [hres] at h; simpa [Except.map] using h
      obtain ⟨pre', new', post', hsplit, hok, hfs, hget⟩ := ih hr
      refine ⟨(old, new) :: pre', new', post', by rw [hsplit]; rfl, ?_, ?_, ?_⟩
      · rw [apply_renames, if_neg (by simp), hrep]
        dsimp only
        rw [hok]
        rfl
      · rw [apply_renames, if_neg (by simp), hrep]
        dsimp only
        exact hfs
      · rw [apply_renames, if_neg (by simp), hrep]
        dsimp only
        exact hget

/-- With pairwise-distinct sources that all exist and targets that hit
no source, every apply-mode rename succeeds and the full pair list is
returned. -/
theorem apply_renames_ok {l : List (JPath × JPath)} :
    ∀ fs : FS, (l.map Prod.fst).Nodup →
      (∀ pr ∈ l, ∀ pr' ∈ l, pr.2 ≠ pr'.1) →
      (∀ pr ∈ l, (FS.get fs pr.1).isSome) →
      (apply_renames l false fs).1 = .ok l := by
  induction l with
  | nil => intro fs _ _ _; rfl
  | cons pr rest ih =>
    obtain ⟨old, new⟩ := pr
    intro fs hnd hvk hex
    rw [apply_renames, if_neg (by simp)]
    have hold := hex (old, new) (List.mem_cons_self _ _)
    cases hrep : osReplace fs old new with
    | none =>
      rw [osReplace_none] at hrep
      rw [hrep] at hold
      simp at hold
    | some fs1 =>
      dsimp only
      have hnd' : (rest.map Prod.fst).Nodup := (List.nodup_cons.mp hnd).2
      have hout : old ∉ rest.map Prod.fst := (List.nodup_cons.mp hnd).1
      have hrest : (apply_renames rest false fs1).1 = .ok rest := by
        apply ih fs1 hnd'
        · intro a h1 a' h2
          exact hvk a (List.mem_cons_of_mem _ h1) a' (List.mem_cons_of_mem _ h2)
        · intro a h1
          rw [osReplace_get hrep]
          have h2 : a.1 ≠ new := fun habs =>
            hvk (old, new) (List.mem_cons_self _ _) a (List.mem_cons_of_mem _ h1) habs.symm
          have h3 : a.1 ≠ old := fun habs =>
            hout (habs ▸ List.mem_map.mpr ⟨a, h1, rfl⟩)
          rw [if_neg h2, if_neg h3]
          exact hex a (List.mem_cons_of_mem _ h1)
      rw [hrest]
      rfl

/-- The executor's behaviour depends on the filesystem only through
`FS.get`: extensionally equal snapshots yield the same report and
extensionally equal final snapshots. -/
theorem apply_renames_congr {l : List (JPath × JPath)} :
    ∀ {fs1 fs2 : FS}, (∀ q, FS.get fs1 q = FS.get fs2 q) →
      (apply_renames l false fs1).1 = (apply_renames l false fs2).1 ∧
      ∀ q, FS.get ((apply_renames l false fs1).2) q =
        FS.get ((apply_renames l false fs2).2) q := by
  induction l with
  | nil => intro fs1 fs2 h; exact ⟨rfl, h⟩
  | cons pr rest ih =>
    obtain ⟨old, new⟩ := pr
    intro fs1 fs2 h
    rw [apply_renames, apply_renames, if_neg (by simp), if_neg (by simp)]
    cases hr1 : osReplace fs1 old new with
    | none =>
      have hr2 : osReplace fs2 old new = none := by
        rw [osReplace_none, ← h old]
        exact osReplace_none.mp hr1
      rw [hr2]
      dsimp only
      exact ⟨rfl, h⟩
    | some fs1' =>
      cases hr2 : osReplace fs2 old new with
      | none =>
        exfalso
        have h1 : FS.get fs1 old = none := by rw [h old]; exact osReplace_none.mp hr2
        rw [osReplace_none.mpr h1] at hr1
        exact absurd hr1 (by simp)
      | some fs2' =>
        dsimp only
        have hq : ∀ q, FS.get fs1' q = FS.get fs2' q := by
          intro q
          rw [osReplace_get hr1, osReplace_get hr2, h old, h q]
        obtain ⟨c1, c2⟩ := ih hq
        exact ⟨by rw [c1], c2⟩

/-- Two interleaved two-way case splits on the same scrutinee commute
when all four compared values are suitably distinct. -/
theorem ite_swap {β α : Type} [DecidableEq β] {q b2 a2 b1 a1 : β}
    (X1 X2 N1 N2 Y : α)
    (h1 : b2 ≠ a1) (h2 : a2 ≠ b1) (h3 : b1 ≠ a1) (h4 : b2 ≠ a2)
    (h5 : a2 ≠ a1) (h6 : b2 ≠ b1) :
    (if q = b2 then X1 else if q = b1 then N1 else
      if q = a2 then X2 else if q = a1 then N2 else Y) =
    (if q = a2 then X2 else if q = a1 then N2 else
      if q = b2 then X1 else if q = b1 then N1 else Y) := by
  by_cases e1 : q = b2 <;> by_cases e2 : q = a2 <;>
    by_cases e3 : q = b1 <;> by_cases e4 : q = a1 <;>
    simp_all

/-- Permutation invariance of the executor on planner-shaped mappings:
with distinct sources, distinct targets, and targets hitting no source,
any reordering succeeds and produces the same filesystem contents. -/
theorem apply_renames_perm {l l' : List (JPath × JPath)} (hperm : l.Perm l') :
    ∀ fs : FS, (l.map Prod.fst).Nodup →
      (∀ pr ∈ l, ∀ pr' ∈ l, pr.2 ≠ pr'.1) →
      (l.map Prod.snd).Nodup →
      (∀ pr ∈ l, (FS.get fs pr.1).isSome) →
      (apply_renames l' false fs).1 = .ok l' ∧
        ∀ q, FS.get ((apply_renames l' false fs).2) q =
          FS.get ((apply_renames l false fs).2) q := by
  induction hperm with
  | nil => intro fs _ _ _ _; exact ⟨rfl, fun _ => rfl⟩
  | cons x h12 ih =>
    rename_i l₁ l₂
    intro fs hnd hvk hvv hex
    obtain ⟨old, new⟩ := x
    rw [apply_renames, apply_renames, if_neg (by simp), if_neg (by simp)]
    have hold := hex (old, new) (List.mem_cons_self _ _)
    cases hrep : osReplace fs old new with
    | none =>
      rw [osReplace_none] at hrep
      rw [hrep] at hold
      simp at hold
    | some fs1 =>
      dsimp only
      have hnd' : (l₁.map Prod.fst).Nodup := (List.nodup_cons.mp hnd).2
      have hout : old ∉ l₁.map Prod.fst := (List.nodup_cons.mp hnd).1
      have hex1 : ∀ pr ∈ l₁, (FS.get fs1 pr.1).isSome := by
        intro a h1
        rw [osReplace_get hrep]
        have h2 : a.1 ≠ new := fun habs =>
          hvk (old, new) (List.mem_cons_self _ _) a (List.mem_cons_of_mem _ h1) habs.symm
        have h3 : a.1 ≠ old := fun habs =>
          hout (habs ▸ List.mem_map.mpr ⟨a, h1, rfl⟩)
        rw [if_neg h2, if_neg h3]
        exact hex a (List.mem_cons_of_mem _ h1)
      obtain ⟨c1, c2⟩ := ih fs1 hnd'
        (fun a h1 a' h2 =>
          hvk a (List.mem_cons_of_mem _ h1) a' (List.mem_cons_of_mem _ h2))
        ((List.nodup_cons.mp hvv).2)
        hex1
      constructor
      · rw [c1]; rfl
      · intro q; exact c2 q
  | swap a b l₁ =>
    intro fs hnd hvk hvv hex
    -- `l = b :: a :: l₁`, `l' = a :: b :: l₁`
    obtain ⟨a1, a2⟩ := a
    obtain ⟨b1, b2⟩ := b
    have hnd0 : (b1 :: a1 :: l₁.map Prod.fst).Nodup := hnd
    obtain ⟨hb1_nin, hnd1⟩ := List.nodup_cons.mp hnd0
    obtain ⟨ha1_nin, hnd_tail⟩ := List.nodup_cons.mp hnd1
    have hvv0 : (b2 :: a2 :: l₁.map Prod.snd).Nodup := hvv
    obtain ⟨hb2_nin, hvv1⟩ := List.nodup_cons.mp hvv0
    have hba : b1 ≠ a1 := fun habs => hb1_nin (by simp [habs])
    have hvk_ba : b2 ≠ a1 := hvk (b1, b2) (by simp) (a1, a2) (by simp)
    have hvk_ab : a2 ≠ b1 := hvk (a1, a2) (by simp) (b1, b2) (by simp)
    have hvv_ab : b2 ≠ a2 := fun habs => hb2_nin (by simp [habs])
    have hex_b : (FS.get fs b1).isSome := hex (b1, b2) (by simp)
    have hex_a : (FS.get fs a1).isSome := hex (a1, a2) (by simp)
    obtain ⟨ca, hca⟩ := Option.isSome_iff_exists.mp hex_a
    obtain ⟨cb, hcb⟩ := Option.isSome_iff_exists.mp hex_b
    have hrb : osReplace fs b1 b2 = some ((b2, cb) :: FS.erase (FS.erase fs b1) b2) := by
      unfold osReplace
      rw [hcb]
    have hra : osReplace fs a1 a2 = some ((a2, ca) :: FS.erase (FS.erase fs a1) a2) := by
      unfold osReplace
      rw [hca]
    have hget_fsb : ∀ q, FS.get ((b2, cb) :: FS.erase (FS.erase fs b1) b2) q =
        if q = b2 then FS.get fs b1 else if q = b1 then none else FS.get fs q :=
      osReplace_get hrb
    have hget_fsa : ∀ q, FS.get ((a2, ca) :: FS.erase (FS.erase fs a1) a2) q =
        if q = a2 then FS.get fs a1 else if q = a1 then none else FS.get fs q :=
      osReplace_get hra
    have hget_fsb_a : FS.get ((b2, cb) :: FS.erase (FS.erase fs b1) b2) a1 =
        FS.get fs a1 := by
      rw [hget_fsb, if_neg (fun h => hvk_ba h.symm), if_neg (fun h => hba h.symm)]
    have hget_fsa_b : FS.get ((a2, ca) :: FS.erase (FS.erase fs a1) a2) b1 =
        FS.get fs b1 := by
      rw [hget_fsa, if_neg (fun h => hvk_ab h.symm), if_neg hba]
    have hrab : osReplace ((a2, ca) :: FS.erase (FS.erase fs a1) a2) b1 b2 =
        some ((b2, cb) :: FS.erase
          (FS.erase ((a2, ca) :: FS.erase (FS.erase fs a1) a2) b1) b2) := by
      unfold osReplace
      rw [hget_fsa_b, hcb]
    have hrba : osReplace ((b2, cb) :: FS.erase (FS.erase fs b1) b2) a1 a2 =
        some ((a2, ca) :: FS.erase
          (FS.erase ((b2, cb) :: FS.erase (FS.erase fs b1) b2) a1) a2) := by
      unfold osReplace
      rw [hget_fsb_a, hca]
    have hvk_aa : a2 ≠ a1 := hvk (a1, a2) (by simp) (a1, a2) (by simp)
    have hvk_bb : b2 ≠ b1 := hvk (b1, b2) (by simp) (b1, b2) (by simp)
    have hcomm : ∀ q,
        FS.get ((b2, cb) :: FS.erase
          (FS.erase ((a2, ca) :: FS.erase (FS.erase fs a1) a2) b1) b2) q =
        FS.get ((a2, ca) :: FS.erase
          (FS.erase ((b2, cb) :: FS.erase (FS.erase fs b1) b2) a1) a2) q := by
      intro q
      rw [osReplace_get hrab q, osReplace_get hrba q, hget_fsa_b, hget_fsb_a,
        hget_fsa, hget_fsb]
      exact ite_swap _ _ _ _ _ hvk_ba hvk_ab hba hvv_ab hvk_aa hvk_bb
    -- hypotheses for the tail in the state after both swapped pairs
    have hvk_tail : ∀ pr ∈ l₁, ∀ pr' ∈ l₁, pr.2 ≠ pr'.1 := fun p h1 p' h2 =>
      hvk p (by simp [h1]) p' (by simp [h2])
    have hex_tail : ∀ pr ∈ l₁, (FS.get ((b2, cb) :: FS.erase
        (FS.erase ((a2, ca) :: FS.erase (FS.erase fs a1) a2) b1) b2) pr.1).isSome := by
      intro p h1
      have hk_b1 : p.1 ≠ b1 := fun habs =>
        hb1_nin (List.mem_cons_of_mem _ (habs ▸ List.mem_map.mpr ⟨p, h1, rfl⟩))
      have hk_a1 : p.1 ≠ a1 := fun habs =>
        ha1_nin (habs ▸ List.mem_map.mpr ⟨p, h1, rfl⟩)
      have hk_b2 : p.1 ≠ b2 := fun habs =>
        hvk (b1, b2) (by simp) p (by simp [h1]) habs.symm
      have hk_a2 : p.1 ≠ a2 := fun habs =>
        hvk (a1, a2) (by simp) p (by simp [h1]) habs.symm
      rw [osReplace_get hrab, if_neg hk_b2, if_neg hk_b1, hget_fsa,
        if_neg hk_a2, if_neg hk_a1]
      exact hex p (by simp [h1])
    have hok_tail := apply_renames_ok _ hnd_tail hvk_tail hex_tail
    obtain ⟨ctail1, ctail2⟩ := apply_renames_congr (l := l₁) hcomm
    have hL : (apply_renames ((a1, a2) :: (b1, b2) :: l₁) false fs).2 =
        (apply_renames l₁ false ((b2, cb) :: FS.erase
          (FS.erase ((a2, ca) :: FS.erase (FS.erase fs a1) a2) b1) b2)).2 := by
      rw [apply_renames, if_neg (by simp), hra]
      dsimp only
      rw [apply_renames, if_neg (by simp), hrab]
    have hR : (apply_renames ((b1, b2) :: (a1, a2) :: l₁) false fs).2 =
        (apply_renames l₁ false ((a2, ca) :: FS.erase
          (FS.erase ((b2, cb) :: FS.erase (FS.erase fs b1) b2) a1) a2)).2 := by
      rw [apply_renames, if_neg (by simp), hrb]
      dsimp only
      rw [apply_renames, if_neg (by simp), hrba]
    constructor
    · rw [apply_renames, if_neg (by simp), hra]
      dsimp only
      rw [apply_renames, if_neg (by simp), hrab]
      dsimp only
      rw [hok_tail]
      rfl
    · intro q
      rw [hL, hR]
      exact ctail2 q
  | trans h12 h23 ih12 ih23 =>
    rename_i l₁ l₂ l₃
    intro fs hnd hvk hvv hex
    have r12 := ih12 fs hnd hvk hvv hex
    have hnd2 : (l₂.map Prod.fst).Nodup := ((h12.map Prod.fst).nodup_iff).mp hnd
    have hvk2 : ∀ pr ∈ l₂, ∀ pr' ∈ l₂, pr.2 ≠ pr'.1 := fun p h1 p' h2 =>
      hvk p (h12.mem_iff.mpr h1) p' (h12.mem_iff.mpr h2)
    have hvv2 : (l₂.map Prod.snd).Nodup := ((h12.map Prod.snd).nodup_iff).mp hvv
    have hex2 : ∀ pr ∈ l₂, (FS.get fs pr.1).isSome := fun p h1 =>
      hex p (h12.mem_iff.mpr h1)
    have r23 := ih23 fs hnd2 hvk2 hvv2 hex2
    exact ⟨r23.1, fun q => (r23.2 q).trans (r12.2 q)⟩

/-! ### Properties of the document updater and the rewriter passes -/

/-- The reported modified list depends only on the scanned documents:
neither the store nor the mode changes which documents are (or would
be) rewritten. -/
theorem pmfGo_modified (rename_map : List (JPath × JPath)) (image_exts : List String)
    (dry_run : Bool) (mds : List (String × String)) :
    ∀ store, (pmfGo rename_map image_exts dry_run mds store).1 =
      (mds.filter (fun e =>
        fix_markdown_links_in_content e.2 rename_map image_exts ≠ e.2)).map Prod.fst := by
  induction mds with
  | nil => intro store; rfl
  | cons e rest ih =>
    obtain ⟨p, orig⟩ := e
    intro store
    by_cases hch : fix_markdown_links_in_content orig rename_map image_exts = orig
    · have hdec : decide (fix_markdown_links_in_content orig rename_map image_exts ≠ orig)
          = false := by simp [hch]
      rw [pmfGo, if_neg (fun h => h hch), List.filter_cons, if_neg (by simp [hdec])]
      exact ih store
    · have hdec : decide (fix_markdown_links_in_content orig rename_map image_exts ≠ orig)
          = true := decide_eq_true hch
      rw [pmfGo, if_pos hch, List.filter_cons, if_pos hdec]
      dsimp only
      rw [List.map_cons]
      exact congrArg (List.cons p) (ih _)

/-- In dry-run mode the document updater writes nothing: the store
comes back unchanged. -/
theorem pmfGo_dry_store (rename_map : List (JPath × JPath)) (image_exts : List String)
    (mds : List (String × String)) (store : List (String × String)) :
    (pmfGo rename_map image_exts true mds store).2 = store := by
  induction mds generalizing store with
  | nil => rfl
  | cons e rest ih =>
    obtain ⟨p, orig⟩ := e
    rw [pmfGo]
    by_cases hch : fix_markdown_links_in_content orig rename_map image_exts ≠ orig
    · rw [if_pos hch, if_pos rfl]
      exact ih store
    · rw [if_neg hch]
      exact ih store

theorem subMdGo_id (lookup : List (List Char × List Char)) (image_exts : List String) :
    ∀ (fuel : Nat) {l : List Char}, l.length ≤ fuel → mdHasMatch l = false →
      subMdGo lookup image_exts fuel l = l := by
  intro fuel
  induction fuel with
  | zero =>
    intro l h1 _
    cases l with
    | nil => rfl
    | cons c cs => exact absurd h1 (by simp)
  | succ g ih =>
    intro l h1 h2
    cases l with
    | nil => rfl
    | cons c cs =>
      rw [subMdGo]
      cases htry : tryMd (c :: cs) with
      | some r =>
        rw [mdHasMatch, htry] at h2
        simp at h2
      | none =>
        rw [mdHasMatch, htry] at h2
        rw [ih (by simpa using h1) h2]

/-- With no inline-form match anywhere, the inline pass copies its
input. -/
theorem subMd_id (lookup : List (List Char × List Char)) (image_exts : List String)
    {l : List Char} (h : mdHasMatch l = false) : subMd lookup image_exts l = l :=
  subMdGo_id lookup image_exts l.length (le_refl _) h

theorem subWikiGo_id (lookup : List (List Char × List Char)) (image_exts : List String) :
    ∀ (fuel : Nat) {l : List Char}, l.length ≤ fuel → wikiHasMatch l = false →
      subWikiGo lookup image_exts fuel l = l := by
  intro fuel
  induction fuel with
  | zero =>
    intro l h1 _
    cases l with
    | nil => rfl
    | cons c cs => exact absurd h1 (by simp)
  | succ g ih =>
    intro l h1 h2
    cases l with
    | nil => rfl
    | cons c cs =>
      rw [subWikiGo]
      cases htry : tryWiki (c :: cs) with
      | some r =>
        rw [wikiHasMatch, htry] at h2
        simp at h2
      | none =>
        rw [wikiHasMatch, htry] at h2
        rw [ih (by simpa using h1) h2]

/-- With no embed-form match anywhere, the embed pass copies its
input. -/
theorem subWiki_id (lookup : List (List Char × List Char)) (image_exts : List String)
    {l : List Char} (h : wikiHasMatch l = false) : subWiki lookup image_exts l = l :=
  subWikiGo_id lookup image_exts l.length (le_refl _) h

/-- On a non-embed wiki link (leading marker not `!`), `wiki_repl`
never rewrites the filename — whatever the lookup table holds — and
only canonicalizes the target (strip surrounding whitespace, turn
backslashes into forward slashes). -/
theorem wikiRepl_no_bang (lookup : List (List Char × List Char))
    (image_exts : List String) (target anchor pipe : List Char) :
    wikiRepl lookup image_exts false target anchor pipe =
      ['[', '['] ++
        ((stripEnds isSpaceC target).map (fun c => if c = '\\' then '/' else c)) ++
        anchor ++ pipe ++ [']', ']'] := by
  simp [wikiRepl]

/-! ### The claims -/

/-- Helper for the amended C3: the planner's sources are a sublist of
the enumerated files. -/
theorem collect_keys_sublist (files : List JPath) (fs : FS) (exts : List String) :
    ((collect_image_renames files fs exts).map Prod.fst).Sublist files := by
  induction files with
  | nil => simp [collect_image_renames]
  | cons p rest ih =>
    rw [collect_image_renames]
    split
    · split
      · simpa using List.Sublist.cons₂ p ih
      · exact ih.trans (List.sublist_cons_self _ _)
    · exact ih.trans (List.sublist_cons_self _ _)

/-- Claim C1, counterexample: in apply mode, when the first pair's move
fails (its source does not exist), the executor raises at that pair and
the remaining pair — whose source does exist — is never processed: the
filesystem still holds `a b.png` untouched, so the run was aborted,
contrary to the claim. -/
theorem claim_C1_counterexample :
    (apply_renames [(⟨["v"], "gone.png"⟩, ⟨["v"], "g.png"⟩),
        (⟨["v"], "a b.png"⟩, ⟨["v"], "ab.png"⟩)] false [(⟨["v"], "a b.png"⟩, 2)]).1 =
      .error ⟨["v"], "gone.png"⟩ ∧
    (apply_renames [(⟨["v"], "gone.png"⟩, ⟨["v"], "g.png"⟩),
        (⟨["v"], "a b.png"⟩, ⟨["v"], "ab.png"⟩)] false [(⟨["v"], "a b.png"⟩, 2)]).2 =
      [(⟨["v"], "a b.png"⟩, 2)] := by
  exact ⟨rfl, rfl⟩

/-- Claim C1, amended: when, while the executor applies a mapping in
apply mode, the move fails for one (old, new) pair, the exception
propagates at once: the pairs before the failing one were applied and
their effects persist (no rollback), and no pair after it is processed
(the filesystem at the raise is exactly the state after the successful
prefix). -/
theorem claim_C1_amended {pairs : List (JPath × JPath)} {fs : FS} {e : JPath}
    (h : (apply_renames pairs false fs).1 = .error e) :
    ∃ pre new post, pairs = pre ++ (e, new) :: post ∧
      (apply_renames pre false fs).1 = .ok pre ∧
      (apply_renames pairs false fs).2 = (apply_renames pre false fs).2 ∧
      FS.get ((apply_renames pre false fs).2) e = none :=
  apply_renames_error h

/-- Claim C1, witness: the amended statement applied to a concrete
one-pair mapping over an empty filesystem. -/
theorem claim_C1_witness :
    ∃ pre new post,
      ([((⟨["v"], "gone.png"⟩ : JPath), (⟨["v"], "g.png"⟩ : JPath))] :
          List (JPath × JPath)) = pre ++ ((⟨["v"], "gone.png"⟩ : JPath), new) :: post ∧
        (apply_renames pre false []).1 = .ok pre ∧
        (apply_renames [((⟨["v"], "gone.png"⟩ : JPath), (⟨["v"], "g.png"⟩ : JPath))]
            false []).2 = (apply_renames pre false []).2 ∧
        FS.get ((apply_renames pre false []).2) ⟨["v"], "gone.png"⟩ = none :=
  claim_C1_amended rfl

/-- Claim C2: in the mapping returned by the planner, every value is a
path that, at mapping-construction time (the enumerated files all exist
in the snapshot), exists nowhere in the snapshot and equals no key of
the mapping. -/
theorem claim_C2 (files : List JPath) (fs : FS) (exts : List String)
    (hfiles : ∀ p ∈ files, FS.memP fs p = true)
    (pr : JPath × JPath) (hpr : pr ∈ collect_image_renames files fs exts)
    (pr' : JPath × JPath) (hpr' : pr' ∈ collect_image_renames files fs exts) :
    FS.memP fs pr.2 = false ∧ pr.2 ≠ pr'.1 := by
  have h2 := collect_value_not_mem hpr
  refine ⟨h2, fun heq => ?_⟩
  have h3 := hfiles pr'.1 (collect_mem hpr').1
  rw [← heq, h2] at h3
  exact absurd h3 (by simp)

/-- Claim C2, witness: the planner over a one-image snapshot. -/
theorem claim_C2_witness :
    FS.memP [((⟨["v"], "a b.png"⟩ : JPath), 1)] (⟨["v"], "a-b.png"⟩ : JPath) = false ∧
      (⟨["v"], "a-b.png"⟩ : JPath) ≠ (⟨["v"], "a b.png"⟩ : JPath) :=
  claim_C2 [⟨["v"], "a b.png"⟩] [(⟨["v"], "a b.png"⟩, 1)] [".png"] (by decide)
    (⟨["v"], "a b.png"⟩, ⟨["v"], "a-b.png"⟩) (by decide)
    (⟨["v"], "a b.png"⟩, ⟨["v"], "a-b.png"⟩) (by decide)

/-- Claim C3, counterexample: two distinct image names in one directory
(`a b.png` and `a%20b.png`) normalize to the same target, the planner
collision-resolves both against the same pre-rename snapshot and maps
both to `a-b.png`, and the final content at `a-b.png` then depends on
the order the executor applies the pairs in — the two orders leave
different filesystem states. -/
theorem claim_C3_counterexample :
    collect_image_renames [⟨["v"], "a b.png"⟩, ⟨["v"], "a%20b.png"⟩]
        [(⟨["v"], "a b.png"⟩, 1), (⟨["v"], "a%20b.png"⟩, 2)] [".png"] =
      [(⟨["v"], "a b.png"⟩, ⟨["v"], "a-b.png"⟩),
        (⟨["v"], "a%20b.png"⟩, ⟨["v"], "a-b.png"⟩)] ∧
    FS.get ((apply_renames
        [(⟨["v"], "a b.png"⟩, ⟨["v"], "a-b.png"⟩),
          (⟨["v"], "a%20b.png"⟩, ⟨["v"], "a-b.png"⟩)] false
        [(⟨["v"], "a b.png"⟩, 1), (⟨["v"], "a%20b.png"⟩, 2)]).2) ⟨["v"], "a-b.png"⟩ =
      some 2 ∧
    FS.get ((apply_renames
        [(⟨["v"], "a%20b.png"⟩, ⟨["v"], "a-b.png"⟩),
          (⟨["v"], "a b.png"⟩, ⟨["v"], "a-b.png"⟩)] false
        [(⟨["v"], "a b.png"⟩, 1), (⟨["v"], "a%20b.png"⟩, 2)]).2) ⟨["v"], "a-b.png"⟩ =
      some 1 := by
  refine ⟨by decide, by decide, by decide⟩

/-- Claim C3, amended: for a planner mapping whose targets are pairwise
distinct (the general case — targets can only coincide when two
distinct names normalize to the same name in one directory), applying
the executor's pairs in any order succeeds and yields the same final
filesystem contents. -/
theorem claim_C3_amended (files : List JPath) (fs : FS) (exts : List String)
    (l' : List (JPath × JPath)) (hnodup : files.Nodup)
    (hex : ∀ p ∈ files, (FS.get fs p).isSome)
    (hvals : ((collect_image_renames files fs exts).map Prod.snd).Nodup)
    (hperm : (collect_image_renames files fs exts).Perm l') :
    (apply_renames l' false fs).1 = .ok l' ∧
      ∀ q, FS.get ((apply_renames l' false fs).2) q =
        FS.get ((apply_renames (collect_image_renames files fs exts) false fs).2) q := by
  apply apply_renames_perm hperm fs
  · exact (collect_keys_sublist files fs exts).nodup hnodup
  · intro pr hpr pr' hpr'
    intro heq
    have h2 := collect_value_not_mem hpr
    rw [FS.memP_eq_get] at h2
    have h3 := hex pr'.1 (collect_mem hpr').1
    rw [← heq] at h3
    rw [h3] at h2
    exact absurd h2 (by simp)
  · exact hvals
  · intro pr hpr
    exact hex pr.1 (collect_mem hpr).1

/-- Claim C3, witness: a two-image plan with distinct targets applied
in reversed order. -/
theorem claim_C3_witness :
    (apply_renames
        [(⟨["v"], "c d.png"⟩, ⟨["v"], "c-d.png"⟩),
          (⟨["v"], "a b.png"⟩, ⟨["v"], "a-b.png"⟩)] false
        [(⟨["v"], "a b.png"⟩, 1), (⟨["v"], "c d.png"⟩, 2)]).1 =
      .ok [(⟨["v"], "c d.png"⟩, ⟨["v"], "c-d.png"⟩),
        (⟨["v"], "a b.png"⟩, ⟨["v"], "a-b.png"⟩)] ∧
    ∀ q, FS.get ((apply_renames
        [(⟨["v"], "c d.png"⟩, ⟨["v"], "c-d.png"⟩),
          (⟨["v"], "a b.png"⟩, ⟨["v"], "a-b.png"⟩)] false
        [(⟨["v"], "a b.png"⟩, 1), (⟨["v"], "c d.png"⟩, 2)]).2) q =
      FS.get ((apply_renames (collect_image_renames
          [⟨["v"], "a b.png"⟩, ⟨["v"], "c d.png"⟩]
          [(⟨["v"], "a b.png"⟩, 1), (⟨["v"], "c d.png"⟩, 2)] [".png"]) false
        [(⟨["v"], "a b.png"⟩, 1), (⟨["v"], "c d.png"⟩, 2)]).2) q := by
  have h := claim_C3_amended [⟨["v"], "a b.png"⟩, ⟨["v"], "c d.png"⟩]
    [(⟨["v"], "a b.png"⟩, 1), (⟨["v"], "c d.png"⟩, 2)] [".png"]
    [(⟨["v"], "c d.png"⟩, ⟨["v"], "c-d.png"⟩), (⟨["v"], "a b.png"⟩, ⟨["v"], "a-b.png"⟩)]
    (by decide) (by decide) (by decide) (by decide)
  exact h

/-- Claim C4, counterexample: `[[ a ]]` contains no image reference of
any kind (no `!` marker, no image extension, empty rename mapping), yet
the rewriter does not return its input: the wiki pass re-emits the
target stripped of surrounding whitespace. -/
theorem claim_C4_counterexample :
    fix_markdown_links_in_content "[[ a ]]" [] [".png"] ≠ "[[ a ]]" := by
  decide

/-- Claim C4, amended: the rewriter is a no-op on any content in which
neither the inline-image pattern nor the wiki-link pattern matches at
all (content that merely lacks image references can still change, since
every wiki-link match — image or not — has its target whitespace-
stripped and backslash-normalized). -/
theorem claim_C4_amended (content : String) (rename_map : List (JPath × JPath))
    (image_exts : List String)
    (h1 : mdHasMatch content.data = false) (h2 : wikiHasMatch content.data = false) :
    fix_markdown_links_in_content content rename_map image_exts = content := by
  show String.mk (subWiki (buildBaseLookup rename_map) image_exts
      (subMd (buildBaseLookup rename_map) image_exts content.data)) = content
  rw [subMd_id _ _ h1, subWiki_id _ _ h2]

/-- Claim C4, witness: prose with no link syntax at all. -/
theorem claim_C4_witness :
    fix_markdown_links_in_content "plain prose, (parens) and [brackets] only." [] [".png"]
      = "plain prose, (parens) and [brackets] only." :=
  claim_C4_amended "plain prose, (parens) and [brackets] only." [] [".png"]
    (by decide) (by decide)

/-- Claim C5, counterexample: the basename of `[[Pasted image 1.png]]`
is a key of the lookup table built from the rename mapping, yet —
because the leading marker is not `!` — the link is not rewritten at
all, contrary to the claimed safety-net exception for non-`!` links. -/
theorem claim_C5_counterexample :
    (dget (buildBaseLookup
        [(⟨["v"], "Pasted image 1.png"⟩, ⟨["v"], "Pasted-image-1.png"⟩)])
      (toLowerL "Pasted image 1.png".data)).isSome = true ∧
    fix_markdown_links_in_content "[[Pasted image 1.png]]"
        [(⟨["v"], "Pasted image 1.png"⟩, ⟨["v"], "Pasted-image-1.png"⟩)] [".png"] =
      "[[Pasted image 1.png]]" := by
  exact ⟨by decide, by decide⟩

/-- Claim C5, amended: in the embed-form pass, a wiki link whose
leading marker is not `!` never has its filename rewritten — whatever
the lookup table holds, the lookup is not consulted; the match is
re-emitted with its target merely whitespace-stripped and
backslash-normalized.  (The lookup-key safety net in the code instead
rescues `!`-marked embeds whose target lacks an image extension.) -/
theorem claim_C5_amended (lookup : List (List Char × List Char))
    (image_exts : List String) (target anchor pipe : List Char) :
    wikiRepl lookup image_exts false target anchor pipe =
      ['[', '['] ++
        ((stripEnds isSpaceC target).map (fun c => if c = '\\' then '/' else c)) ++
        anchor ++ pipe ++ [']', ']'] :=
  wikiRepl_no_bang lookup image_exts target anchor pipe

/-- Claim C6: in dry-run mode no filesystem state is mutated while all
decisions are still computed and reported: the executor returns the
full planned pair list and the filesystem unchanged, and the document
updater returns the store unchanged while reporting exactly the
documents that apply mode would modify. -/
theorem claim_C6 (m : List (JPath × JPath)) (fs : FS)
    (store : List (String × String)) (rename_map : List (JPath × JPath))
    (image_exts : List String) :
    apply_renames m true fs = (.ok m, fs) ∧
    (process_markdown_files store rename_map true image_exts).2 = store ∧
    (process_markdown_files store rename_map true image_exts).1 =
      (process_markdown_files store rename_map false image_exts).1 := by
  refine ⟨apply_renames_dry m fs, ?_, ?_⟩
  · unfold process_markdown_files
    exact pmfGo_dry_store rename_map image_exts _ store
  · unfold process_markdown_files
    rw [pmfGo_modified, pmfGo_modified]

/-- Claim C7: the filename normalizer is idempotent. -/
theorem claim_C7 (x : String) :
    normalize_hyphens (normalize_hyphens x) = normalize_hyphens x := by
  show String.mk (normalizeL (normalizeL x.data)) = String.mk (normalizeL x.data)
  rw [normalizeL_idem]

/-- Claim C8: for every filename containing a space or `%20`, the
normalized name contains no space, no `%20`, no run of two or more
hyphens, and neither starts nor ends with a hyphen.  (The conclusions
in fact hold for every input.) -/
theorem claim_C8 (f : String)
    (h : f.data.contains ' ' = true ∨ has20 f.data = true) :
    (normalize_hyphens f).data.contains ' ' = false ∧
    has20 (normalize_hyphens f).data = false ∧
    hasDoubleHy (normalize_hyphens f).data = false ∧
    (∀ c, (normalize_hyphens f).data.head? = some c → c ≠ '-') ∧
    (∀ c, (normalize_hyphens f).data.getLast? = some c → c ≠ '-') := by
  refine ⟨?_, normalizeL_no20 f.data, normalizeL_noDH f.data,
    fun c hc => normalizeL_head f.data hc, fun c hc => normalizeL_getLast f.data hc⟩
  have hws := normalizeL_noWs f.data
  simp only [hasWs, List.any_eq_false] at hws
  cases hcont : (normalize_hyphens f).data.contains ' '
  · rfl
  · have hmem : ' ' ∈ (normalize_hyphens f).data := by
      simpa using hcont
    have := hws ' ' hmem
    simp [isSpaceC] at this

/-- Claim C8, witness: the conclusions at `"a b.png"`. -/
theorem claim_C8_witness :
    (normalize_hyphens "a b.png").data.contains ' ' = false ∧
    has20 (normalize_hyphens "a b.png").data = false ∧
    hasDoubleHy (normalize_hyphens "a b.png").data = false ∧
    (∀ c, (normalize_hyphens "a b.png").data.head? = some c → c ≠ '-') ∧
    (∀ c, (normalize_hyphens "a b.png").data.getLast? = some c → c ≠ '-') :=
  claim_C8 "a b.png" (Or.inl (by decide))

/-- Claim C9: the collision resolver returns the target unchanged when
no file exists at it; otherwise it returns the first of `stem-1.ext`,
`stem-2.ext`, … that does not exist; it never returns a path existing
at call time; and in a directory holding `a.png` and `a-1.png`,
resolving a collision on `a.png` yields `a-2.png`. -/
theorem claim_C9 (fs : FS) (target : JPath) :
    (FS.memP fs target = false → choose_unique_path fs target = target) ∧
    (FS.memP fs target = true →
      ∃ k, 1 ≤ k ∧ choose_unique_path fs target = candPath target k ∧
        FS.memP fs (candPath target k) = false ∧
        ∀ m, 1 ≤ m → m < k → FS.memP fs (candPath target m) = true) ∧
    FS.memP fs (choose_unique_path fs target) = false ∧
    choose_unique_path [((⟨["d"], "a.png"⟩ : JPath), 1), ((⟨["d"], "a-1.png"⟩ : JPath), 2)]
      ⟨["d"], "a.png"⟩ = ⟨["d"], "a-2.png"⟩ := by
  refine ⟨fun h => choose_of_not_mem h, fun h => choose_least h,
    choose_not_mem fs target, by decide⟩

/-- Claim C9, witness: both branches at concrete snapshots. -/
theorem claim_C9_witness :
    choose_unique_path [((⟨["d"], "a.png"⟩ : JPath), 1)] ⟨["d"], "b.png"⟩ =
      ⟨["d"], "b.png"⟩ ∧
    FS.memP [((⟨["d"], "a.png"⟩ : JPath), 1)]
      (choose_unique_path [((⟨["d"], "a.png"⟩ : JPath), 1)] ⟨["d"], "a.png"⟩) = false :=
  ⟨(claim_C9 [((⟨["d"], "a.png"⟩ : JPath), 1)] ⟨["d"], "b.png"⟩).1 (by decide),
    (claim_C9 [((⟨["d"], "a.png"⟩ : JPath), 1)] ⟨["d"], "a.png"⟩).2.2.1⟩

/-- Claim C10: over the finite snapshot the candidate loop of
`choose_unique_path` terminates — when the target exists there is
always some `n ≥ 1` with `stem-n.ext` free, and the function returns
that candidate (the fuelled search provably never exhausts its
`fs.length + 1` rounds of fuel). -/
theorem claim_C10 (fs : FS) (target : JPath)
    (h : FS.memP fs target = true) :
    (chooseOpt fs target).isSome = true ∧
    ∃ n, 1 ≤ n ∧ FS.memP fs (candPath target n) = false ∧
      choose_unique_path fs target = candPath target n := by
  refine ⟨chooseOpt_isSome fs target, ?_⟩
  obtain ⟨k, hk1, hk2, hk3, _⟩ := choose_least h
  exact ⟨k, hk1, hk3, hk2⟩

/-- Claim C10, witness: the loop's success on a concrete snapshot where
the first candidate is also taken. -/
theorem claim_C10_witness :
    (chooseOpt [((⟨["d"], "a.png"⟩ : JPath), 1), ((⟨["d"], "a-1.png"⟩ : JPath), 2)]
      ⟨["d"], "a.png"⟩).isSome = true ∧
    ∃ n, 1 ≤ n ∧
      FS.memP [((⟨["d"], "a.png"⟩ : JPath), 1), ((⟨["d"], "a-1.png"⟩ : JPath), 2)]
        (candPath ⟨["d"], "a.png"⟩ n) = false ∧
      choose_unique_path [((⟨["d"], "a.png"⟩ : JPath), 1),
        ((⟨["d"], "a-1.png"⟩ : JPath), 2)] ⟨["d"], "a.png"⟩ =
        candPath ⟨["d"], "a.png"⟩ n :=
  claim_C10 [((⟨["d"], "a.png"⟩ : JPath), 1), ((⟨["d"], "a-1.png"⟩ : JPath), 2)]
    ⟨["d"], "a.png"⟩ (by decide)

end SpaceFill
